import Mathlib

set_option maxRecDepth 4000

/-
Verification of the release-entry manifest core of squirrel-rs
(src/release_entry.rs). Strings are modelled as lists of characters and
bytes as natural numbers below 256. External crates used by the source
(hex, semver, url/percent-encoding, sha2) are modelled by executable
definitions of their documented behaviour on the inputs the source feeds
them.
-/

/-- Errors of the release-entry parser. Each constructor marks one failure
site of the Rust source; the source returns boxed errors, several created
from string messages and the rest forwarded from library error types. -/
inductive ParseError where
  | invalidEntryFormat
  | shaHexError
  | shaLengthError
  | packageTypeError
  | nameError
  | versionError
  | lengthError
  | percentIntError
  | percentRangeError
  deriving DecidableEq, Repr

/-- Unicode white-space code points, as recognised by char::is_whitespace
in Rust (the Unicode White_Space property). -/
def rustWs (c : Char) : Bool :=
  ([0x9, 0xA, 0xB, 0xC, 0xD, 0x20, 0x85, 0xA0, 0x1680,
    0x2000, 0x2001, 0x2002, 0x2003, 0x2004, 0x2005, 0x2006, 0x2007,
    0x2008, 0x2009, 0x200A, 0x2028, 0x2029, 0x202F, 0x205F, 0x3000] : List Nat).contains c.toNat

/-- Worker of splitWhitespace: the first argument is the remaining input,
the second the reversed current token. -/
def splitWsAux : List Char → List Char → List (List Char)
  | [], cur => if cur = [] then [] else [cur.reverse]
  | c :: rest, cur =>
    if rustWs c then
      if cur = [] then splitWsAux rest [] else cur.reverse :: splitWsAux rest []
    else splitWsAux rest (c :: cur)

/-- Split a character list on runs of white space, discarding empty
tokens; models str::split_whitespace. -/
def splitWhitespace (l : List Char) : List (List Char) :=
  splitWsAux l []

/-- Split a character list at a separator character, keeping empty pieces;
models str::split with a char pattern. -/
def splitOnChar (sep : Char) : List Char → List (List Char)
  | [] => [[]]
  | c :: rest =>
    if c = sep then [] :: splitOnChar sep rest
    else
      match splitOnChar sep rest with
      | [] => [[c]]
      | t :: ts => (c :: t) :: ts

/-- Drop everything from the first number-sign to the end of the line;
models replace_all of the COMMENT pattern (number-sign followed by the
rest of the line) with the empty string. -/
def stripComment (l : List Char) : List Char :=
  l.takeWhile (fun c => c ≠ '#')

def isDigitChar (c : Char) : Bool :=
  decide (48 ≤ c.toNat) && decide (c.toNat ≤ 57)

def digitsVal (l : List Char) : Nat :=
  l.foldl (fun acc c => 10 * acc + (c.toNat - 48)) 0

/-- Value of a nonempty all-digit token. -/
def parseNat (l : List Char) : Option Nat :=
  if l ≠ [] ∧ l.all isDigitChar then some (digitsVal l) else none

/-- Models str::parse::<u64>: an optional leading plus sign, then decimal
digits, rejecting values that overflow 64 bits. -/
def parse_u64_opt (l : List Char) : Option Nat :=
  let body := if l.head? = some '+' then l.drop 1 else l
  match parseNat body with
  | some n => if n < 2 ^ 64 then some n else none
  | none => none

/-- Models str::parse::<i32>: an optional sign, then decimal digits,
rejecting values outside the 32-bit signed range. -/
def parse_i32_opt (l : List Char) : Option Int :=
  if l.head? = some '+' then
    (parseNat (l.drop 1)).bind (fun n => if n ≤ 2147483647 then some ((n : Int)) else none)
  else if l.head? = some '-' then
    (parseNat (l.drop 1)).bind (fun n => if n ≤ 2147483648 then some (-(n : Int)) else none)
  else
    (parseNat l).bind (fun n => if n ≤ 2147483647 then some ((n : Int)) else none)

def hexVal (c : Char) : Option Nat :=
  if 48 ≤ c.toNat ∧ c.toNat ≤ 57 then some (c.toNat - 48)
  else if 97 ≤ c.toNat ∧ c.toNat ≤ 102 then some (c.toNat - 87)
  else if 65 ≤ c.toNat ∧ c.toNat ≤ 70 then some (c.toNat - 55)
  else none

/-- Models hex decoding of a token (the hex crate from_hex): pairs of hex
digits become bytes; an odd length or a non-hex digit fails. -/
def fromHex : List Char → Option (List Nat)
  | [] => some []
  | [_] => none
  | a :: b :: rest =>
    match hexVal a, hexVal b, fromHex rest with
    | some x, some y, some bs => some ((16 * x + y) :: bs)
    | _, _, _ => none

def hexDigitLower (n : Nat) : Char :=
  if n < 10 then Char.ofNat (48 + n) else Char.ofNat (87 + n)

def hexDigitUpper (n : Nat) : Char :=
  if n < 10 then Char.ofNat (48 + n) else Char.ofNat (55 + n)

def byteHexLower (b : Nat) : List Char := [hexDigitLower (b / 16), hexDigitLower (b % 16)]

def byteHexUpper (b : Nat) : List Char := [hexDigitUpper (b / 16), hexDigitUpper (b % 16)]

/-- Worker of natRepr with a fuel bound on the digit count. -/
def natReprAux : Nat → Nat → List Char
  | 0, _ => []
  | fuel + 1, n =>
    if n < 10 then [Char.ofNat (48 + n)]
    else natReprAux fuel (n / 10) ++ [Char.ofNat (48 + n % 10)]

/-- Decimal digits of a natural number; models the Display output of the
unsigned integer types of Rust. -/
def natRepr (n : Nat) : List Char :=
  natReprAux (n + 1) n

/-- Models the Display output of i32. -/
def intRepr (n : Int) : List Char :=
  if n < 0 then '-' :: natRepr n.natAbs else natRepr n.toNat

/-- One dot-separated identifier of a semantic version: numeric, or
alphanumeric with hyphens. Models the Identifier type of the semver
crate. -/
inductive SvId where
  | num : Nat → SvId
  | alpha : List Char → SvId
  deriving DecidableEq, Repr

/-- Models the Version type of the semver crate. -/
structure SemVer where
  major : Nat
  minor : Nat
  patch : Nat
  pre : List SvId
  build : List SvId
  deriving DecidableEq, Repr

def isIdChar (c : Char) : Bool :=
  isDigitChar c || (decide (65 ≤ c.toNat) && decide (c.toNat ≤ 90))
    || (decide (97 ≤ c.toNat) && decide (c.toNat ≤ 122)) || c = '-'

/-- A numeric version component: decimal digits, no leading zero, within
the unsigned 64-bit range used by the semver crate. -/
def parseNumStrict (l : List Char) : Option Nat :=
  match parseNat l with
  | some n =>
    if 1 < l.length ∧ l.head? = some '0' then none
    else if n < 2 ^ 64 then some n else none
  | none => none

def parseSvId (l : List Char) : Option SvId :=
  if l = [] then none
  else if ¬ l.all isIdChar then none
  else if l.all isDigitChar then
    match parseNumStrict l with
    | some n => some (.num n)
    | none => none
  else some (.alpha l)

def parseSvIds (l : List Char) : Option (List SvId) :=
  (splitOnChar '.' l).mapM parseSvId

/-- Split at the first occurrence of a character, which is dropped. -/
def findSplit (sep : Char) : List Char → Option (List Char × List Char)
  | [] => none
  | c :: rest =>
    if c = sep then some ([], rest)
    else (findSplit sep rest).map (fun p => (c :: p.1, p.2))

/-- Models Version::parse of the semver crate for the semantic-version 2.0
grammar: major.minor.patch, an optional pre-release part after a hyphen
and an optional build part after a plus sign. -/
def vparse (l : List Char) : Option SemVer :=
  let cb := match findSplit '+' l with
    | some p => (p.1, some p.2)
    | none => (l, none)
  let cp := match findSplit '-' cb.1 with
    | some p => (p.1, some p.2)
    | none => (cb.1, none)
  match splitOnChar '.' cp.1 with
  | [ma, mi, pa] =>
    match parseNumStrict ma, parseNumStrict mi, parseNumStrict pa with
    | some x, some y, some z =>
      let preIds := match cp.2 with
        | none => some []
        | some p => parseSvIds p
      let buildIds := match cb.2 with
        | none => some []
        | some b => parseSvIds b
      match preIds, buildIds with
      | some ps, some bs => some ⟨x, y, z, ps, bs⟩
      | _, _ => none
    | _, _, _ => none
  | _ => none

def svIdRepr : SvId → List Char
  | .num n => natRepr n
  | .alpha s => s

/-- Join pieces with a single separator character between them. -/
def sepJoin (sep : Char) : List (List Char) → List Char
  | [] => []
  | [x] => x
  | x :: xs => x ++ sep :: sepJoin sep xs

/-- Models the Display output of Version in the semver crate. -/
def vformat (v : SemVer) : List Char :=
  natRepr v.major ++ '.' :: natRepr v.minor ++ '.' :: natRepr v.patch
  ++ (if v.pre = [] then [] else '-' :: sepJoin '.' (v.pre.map svIdRepr))
  ++ (if v.build = [] then [] else '+' :: sepJoin '.' (v.build.map svIdRepr))

/-- Well-formedness of an identifier as the semver grammar requires: a
numeric identifier fits 64 bits; an alphanumeric identifier is nonempty,
uses only permitted characters and has at least one non-digit. -/
def svIdValid : SvId → Bool
  | .num n => decide (n < 2 ^ 64)
  | .alpha s => !s.isEmpty && s.all isIdChar && !s.all isDigitChar

def vvalid (v : SemVer) : Bool :=
  decide (v.major < 2 ^ 64) && decide (v.minor < 2 ^ 64) && decide (v.patch < 2 ^ 64) &&
  v.pre.all svIdValid && v.build.all svIdValid

/-- UTF-8 encoding of one character. -/
def utf8EncodeChar (c : Char) : List Nat :=
  let n := c.toNat
  if n < 0x80 then [n]
  else if n < 0x800 then [0xC0 + n / 64, 0x80 + n % 64]
  else if n < 0x10000 then [0xE0 + n / 4096, 0x80 + n / 64 % 64, 0x80 + n % 64]
  else [0xF0 + n / 262144, 0x80 + n / 4096 % 64, 0x80 + n / 64 % 64, 0x80 + n % 64]

def utf8Encode (l : List Char) : List Nat :=
  (l.map utf8EncodeChar).flatten

def isCont (b : Nat) : Bool := decide (0x80 ≤ b) && decide (b ≤ 0xBF)

def cont2ok (b b2 : Nat) : Bool :=
  if b = 0xE0 then decide (0xA0 ≤ b2) && decide (b2 ≤ 0xBF)
  else if b = 0xED then decide (0x80 ≤ b2) && decide (b2 ≤ 0x9F)
  else isCont b2

def cont3ok (b b2 : Nat) : Bool :=
  if b = 0xF0 then decide (0x90 ≤ b2) && decide (b2 ≤ 0xBF)
  else if b = 0xF4 then decide (0x80 ≤ b2) && decide (b2 ≤ 0x8F)
  else isCont b2

/-- Decode one UTF-8 sequence: the first byte and the remaining input
yield the character and the input after the sequence. Strict: overlong
forms, surrogates and values above 0x10FFFF are rejected. -/
def utf8Step (b : Nat) (rest : List Nat) : Option (Char × List Nat) :=
  if b < 0x80 then some (Char.ofNat b, rest)
  else if 0xC2 ≤ b ∧ b ≤ 0xDF then
    match rest with
    | b2 :: rest2 =>
      if isCont b2 then some (Char.ofNat ((b - 0xC0) * 64 + (b2 - 0x80)), rest2) else none
    | _ => none
  else if 0xE0 ≤ b ∧ b ≤ 0xEF then
    match rest with
    | b2 :: b3 :: rest3 =>
      if cont2ok b b2 && isCont b3 then
        some (Char.ofNat ((b - 0xE0) * 4096 + (b2 - 0x80) * 64 + (b3 - 0x80)), rest3)
      else none
    | _ => none
  else if 0xF0 ≤ b ∧ b ≤ 0xF4 then
    match rest with
    | b2 :: b3 :: b4 :: rest4 =>
      if cont3ok b b2 && isCont b3 && isCont b4 then
        some (Char.ofNat ((b - 0xF0) * 262144 + (b2 - 0x80) * 4096 + (b3 - 0x80) * 64 +
          (b4 - 0x80)), rest4)
      else none
    | _ => none
  else none

/-- Worker of utf8Decode with a fuel bound on the input length. -/
def udAux : Nat → List Nat → Option (List Char)
  | 0, [] => some []
  | 0, _ :: _ => none
  | _ + 1, [] => some []
  | fuel + 1, b :: rest =>
    (utf8Step b rest).bind (fun p => (udAux fuel p.2).map (fun s => p.1 :: s))

/-- Strict UTF-8 decoding, rejecting overlong forms, surrogates and
values above 0x10FFFF; models str::from_utf8. -/
def utf8Decode (l : List Nat) : Option (List Char) :=
  udAux l.length l

def hexValByte (b : Nat) : Option Nat :=
  if 48 ≤ b ∧ b ≤ 57 then some (b - 48)
  else if 97 ≤ b ∧ b ≤ 102 then some (b - 87)
  else if 65 ≤ b ∧ b ≤ 70 then some (b - 55)
  else none

/-- Worker of percentDecode with a fuel bound on the input length. -/
def pdAux : Nat → List Nat → List Nat
  | 0, l => l
  | _, [] => []
  | fuel + 1, b :: rest =>
    if b = 0x25 then
      match rest with
      | a :: c :: rest2 =>
        match hexValByte a, hexValByte c with
        | some x, some y => (16 * x + y) :: pdAux fuel rest2
        | _, _ => b :: pdAux fuel rest
      | _ => b :: pdAux fuel rest
    else b :: pdAux fuel rest

/-- Models percent_decode of the url crate: a percent sign followed by two
hex digits becomes the byte; anything else passes through unchanged. -/
def percentDecode (l : List Nat) : List Nat :=
  pdAux l.length l

/-- Lowercase a single ASCII letter. -/
def asciiLower (c : Char) : Char :=
  if 65 ≤ c.toNat ∧ c.toNat ≤ 90 then Char.ofNat (c.toNat + 32) else c

/-- A path segment that counts as a single dot during URL path parsing:
a literal dot or a percent-encoded dot in either case. -/
def isDotSeg (s : List Char) : Bool :=
  s = ['.'] || s.map asciiLower = ['%', '2', 'e']

/-- A path segment that counts as a double dot during URL path parsing. -/
def isDotDotSeg (s : List Char) : Bool :=
  s = ['.', '.'] || s.map asciiLower = ['.', '%', '2', 'e'] ||
  s.map asciiLower = ['%', '2', 'e', '.'] || s.map asciiLower = ['%', '2', 'e', '%', '2', 'e']

/-- A Windows drive letter segment as the url crate detects one: exactly
an ASCII letter followed by a colon or a vertical bar. -/
def isWinDriveSeg (s : List Char) : Bool :=
  match s with
  | [a, b] =>
    ((decide (65 ≤ a.toNat) && decide (a.toNat ≤ 90)) ||
     (decide (97 ≤ a.toNat) && decide (a.toNat ≤ 122))) &&
    (decide (b = ':') || decide (b = '|'))
  | _ => false

/-- The normalisation the file-URL path parser applies to a drive letter
segment: a trailing vertical bar becomes a colon. -/
def normDriveSeg (s : List Char) : List Char :=
  match s with
  | [a, b] => if b = '|' then [a, ':'] else [a, b]
  | t => t

/-- Remove the last path segment, as pop_path of the url crate does for
a double-dot segment; a Windows drive letter segment is never popped. -/
def popSeg (acc : List (List Char)) : List (List Char) :=
  match acc.getLast? with
  | some s => if isWinDriveSeg s then acc else acc.dropLast
  | none => acc

/-- Dot-segment resolution of the URL path parser: a double-dot segment
removes the previous segment (drive letters excepted), a single-dot
segment is dropped, a final dot segment leaves a trailing empty segment,
and a drive letter segment appended to the still-empty path of a file
URL is normalised. -/
def procSegs (acc : List (List Char)) : List (List Char) → List (List Char)
  | [] => acc
  | [s] =>
    if isDotDotSeg s then popSeg acc ++ [[]]
    else if isDotSeg s then acc ++ [[]]
    else if acc.isEmpty && isWinDriveSeg s then acc ++ [normDriveSeg s]
    else acc ++ [s]
  | s :: rest =>
    if isDotDotSeg s then procSegs (popSeg acc) rest
    else if isDotSeg s then procSegs acc rest
    else if acc.isEmpty && isWinDriveSeg s then procSegs (acc ++ [normDriveSeg s]) rest
    else procSegs (acc ++ [s]) rest

/-- Path of the URL obtained by prefixing a token with file:///, as the
url crate computes it for a token free of white space: characters from
the first question mark or number sign on belong to the query or the
fragment, a backslash separates path segments like a slash, dot segments
are resolved, and a Windows drive letter as the first path segment has
its vertical bar normalised to a colon. Characters the parser
percent-encodes are left intact here because the source immediately
percent-decodes the path and the two steps cancel. -/
def filePathOf (tok : List Char) : List Char :=
  let t1 := tok.takeWhile (fun c => c ≠ '#')
  let t2 := t1.takeWhile (fun c => c ≠ '?')
  let t3 := t2.map (fun c => if c = '\\' then '/' else c)
  let segs := procSegs [] (splitOnChar '/' t3)
  (segs.map (fun s => '/' :: s)).flatten

def hasPfx (p l : List Char) : Bool := decide (l.take p.length = p)

def httpsPfx : List Char := ['h', 't', 't', 'p', 's', ':']

/-- A port token: empty, or digits below 65536. -/
def portOk (p : List Char) : Bool :=
  p.isEmpty || (p.all isDigitChar && decide (digitsVal p < 65536))

/-- One hexadecimal group of an IPv6 address: one to four hex digits. -/
def isH16 (s : List Char) : Bool :=
  !s.isEmpty && decide (s.length ≤ 4) && s.all (fun c => (hexVal c).isSome)

/-- Positions of the empty groups of a colon-split IPv6 literal. -/
def emptyIdx (parts : List (List Char)) : List Nat :=
  (List.range parts.length).filter (fun i => (parts.getD i []).isEmpty)

/-- A textual IPv6 address: hexadecimal groups separated by colons,
eight of them when there is no zero gap, else one double-colon gap
standing for at least one zero group, seen in the colon-split list as a
single run of empty parts whose length depends on its position.
IPv4-in-IPv6 tails are not modelled. -/
def ipv6Valid (s : List Char) : Bool :=
  let parts := splitOnChar ':' s
  let n := parts.length
  let emp := emptyIdx parts
  parts.all (fun p => p.isEmpty || isH16 p) &&
  match emp with
  | [] => decide (n = 8)
  | i :: _ =>
    decide (emp = (List.range emp.length).map (fun k => i + k)) &&
    decide (n - emp.length ≤ 7) &&
    (if i = 0 ∧ i + emp.length = n then decide (emp.length = 3)
     else if i = 0 then decide (emp.length = 2)
     else if i + emp.length = n then decide (emp.length = 2)
     else decide (emp.length = 1))

/-- Model of Url::parse validation for tokens carrying the https scheme:
leading slashes and backslashes after the scheme are skipped, the
authority runs to the first slash, backslash, question mark or number
sign, user information up to the last commercial-at is accepted, and the
host is either a bracketed IPv6 literal or a nonempty run of permitted
characters, optionally followed by a colon and a numeric port below
65536. IDNA host normalisation, IPv4 host parsing and percent-decoding
of hosts are not modelled; no theorem below depends on this branch. -/
def httpsUrlValid (tok : List Char) : Bool :=
  let r1 := tok.drop 6
  let r2 := r1.dropWhile (fun c => c = '/' || c = '\\')
  let auth := r2.takeWhile (fun c => c ≠ '/' && c ≠ '?' && c ≠ '#' && c ≠ '\\')
  let hostPort := (auth.reverse.takeWhile (fun c => c ≠ '@')).reverse
  if hostPort.head? = some '[' then
    let inner := (hostPort.drop 1).takeWhile (fun c => c ≠ ']')
    let rest := (hostPort.drop 1).dropWhile (fun c => c ≠ ']')
    if rest.head? = some ']' then
      let tail := rest.drop 1
      ipv6Valid inner &&
      (tail.isEmpty || (decide (tail.head? = some ':') && portOk (tail.drop 1)))
    else false
  else
    let host := hostPort.takeWhile (fun c => c ≠ ':')
    let port := (hostPort.dropWhile (fun c => c ≠ ':')).drop 1
    !host.isEmpty &&
    host.all (fun c => !(decide (c.toNat < 0x21) ||
      (['#', '%', ':', '@', '[', ']', '^', '|', '<', '>', '"'] : List Char).contains c)) &&
    portOk port

/-- The parsed release entry of the source: a 32-byte digest, a file name
or URL, a semantic version, a byte count, the delta flag and the staged
rollout percentage. -/
structure ReleaseEntry where
  sha256 : List Nat
  filename_or_url : List Char
  version : SemVer
  length : Nat
  is_delta : Bool
  percentage : Int
  deriving DecidableEq, Repr

namespace ReleaseEntry

/-- Models ReleaseEntry::parse_name: https tokens are validated as URLs
and returned verbatim; any other token is wrapped as a file:/// URL whose
path is percent-decoded as UTF-8, and every leading slash of the decoded
path is removed (trim_left_matches removes all leading matches). -/
def parse_name (tok : List Char) : Except ParseError (List Char) :=
  if hasPfx httpsPfx tok then
    if httpsUrlValid tok then .ok tok else .error .nameError
  else
    match utf8Decode (percentDecode (utf8Encode (filePathOf tok))) with
    | some s => .ok (s.dropWhile (fun c => c = '/'))
    | none => .error .nameError

/-- Models ReleaseEntry::parse_delta_full. -/
def parse_delta_full (t : List Char) : Except ParseError Bool :=
  if t = ['d', 'e', 'l', 't', 'a'] then .ok true
  else if t = ['f', 'u', 'l', 'l'] then .ok false
  else .error .packageTypeError

/-- Remove every trailing percent sign; models
trim_right_matches applied to a one-character pattern. -/
def trimPct (t : List Char) : List Char :=
  (t.reverse.dropWhile (fun c => c = '%')).reverse

/-- Models ReleaseEntry::parse_percentage: every trailing percent sign is
removed (trim_right_matches removes all trailing matches), the remainder
is parsed as an i32 and the value must lie between 0 and 100. -/
def parse_percentage (t : List Char) : Except ParseError Int :=
  match parse_i32_opt (trimPct t) with
  | none => .error .percentIntError
  | some n => if n > 100 ∨ n < 0 then .error .percentRangeError else .ok n

/-- Models ReleaseEntry::parse_sha256: hex-decode the token and require
exactly 32 bytes. -/
def parse_sha256 (t : List Char) : Except ParseError (List Nat) :=
  match fromHex t with
  | none => .error .shaHexError
  | some bs => if bs.length ≠ 32 then .error .shaLengthError else .ok bs

/-- Version::parse of the semver crate lifted to the parser error type. -/
def parse_version (t : List Char) : Except ParseError SemVer :=
  match vparse t with
  | some v => .ok v
  | none => .error .versionError

/-- size.parse::<u64>() lifted to the parser error type. -/
def parse_length (t : List Char) : Except ParseError Nat :=
  match parse_u64_opt t with
  | some n => .ok n
  | none => .error .lengthError

/-- Models ReleaseEntry::parse: split the line into white-space separated
tokens, require five or six of them, and validate the fields in the
evaluation order of the source: package type, name, version, length,
percentage for a six-token line, and the digest last. -/
def parse (entry : List Char) : Except ParseError ReleaseEntry :=
  match splitWhitespace entry with
  | [sha, name, ver, size, df] =>
    match parse_delta_full df with
    | .error e => .error e
    | .ok d =>
      match parse_name name with
      | .error e => .error e
      | .ok n =>
        match parse_version ver with
        | .error e => .error e
        | .ok v =>
          match parse_length size with
          | .error e => .error e
          | .ok len =>
            match parse_sha256 sha with
            | .error e => .error e
            | .ok s => .ok ⟨s, n, v, len, d, 100⟩
  | [sha, name, ver, size, df, pct] =>
    match parse_delta_full df with
    | .error e => .error e
    | .ok d =>
      match parse_name name with
      | .error e => .error e
      | .ok n =>
        match parse_version ver with
        | .error e => .error e
        | .ok v =>
          match parse_length size with
          | .error e => .error e
          | .ok len =>
            match parse_percentage pct with
            | .error e => .error e
            | .ok p =>
              match parse_sha256 sha with
              | .error e => .error e
              | .ok s => .ok ⟨s, n, v, len, d, p⟩
  | _ => .error .invalidEntryFormat

/-- One step of the line fold inside parse_entries: strip the comment,
skip the line when nothing remains, and otherwise parse it, recording the
error (overwriting any earlier one) or appending the entry. -/
def entryStep (st : Option ParseError × List ReleaseEntry) (x : List Char) :
    Option ParseError × List ReleaseEntry :=
  let r := stripComment x
  if r = [] then st
  else
    match parse r with
    | .error e => (some e, st.2)
    | .ok v => (st.1, st.2 ++ [v])

/-- Models ReleaseEntry::parse_entries: split the document at newlines,
fold every line through entryStep, and fail with the recorded error when
one exists, else return the collected entries in order. -/
def parse_entries (content : List Char) : Except ParseError (List ReleaseEntry) :=
  let st := (splitOnChar '\n' content).foldl entryStep (none, [])
  match st.1 with
  | some e => .error e
  | none => .ok st.2

/-- Models ReleaseEntry::sha256_to_string: lowercase hex of the digest. -/
def sha256_to_string (e : ReleaseEntry) : List Char :=
  (e.sha256.map byteHexLower).flatten

end ReleaseEntry

/-- Byte membership in DEFAULT_ENCODE_SET of the url crate: controls,
bytes above 0x7E, space, double quote, number sign, less-than,
greater-than, question mark, backquote and both curly brackets. -/
def inDefaultSet (b : Nat) : Bool :=
  decide (b < 0x21) || decide (0x7E < b) ||
  ([0x22, 0x23, 0x3C, 0x3E, 0x3F, 0x60, 0x7B, 0x7D] : List Nat).contains b

/-- Percent-encode the UTF-8 bytes of a name with DEFAULT_ENCODE_SET,
as utf8_percent_encode does. -/
def encodeName (f : List Char) : List Char :=
  ((utf8Encode f).map (fun b => if inDefaultSet b then '%' :: byteHexUpper b else [Char.ofNat b])).flatten

/-- The characters one name character contributes to its encoding. -/
def escPiece (c : Char) : List Char :=
  if inDefaultSet c.toNat then '%' :: byteHexUpper c.toNat else [Char.ofNat c.toNat]

/-- The bytes one name character contributes to the encoded token. -/
def bytePiece (c : Char) : List Nat :=
  if inDefaultSet c.toNat then 0x25 :: (byteHexUpper c.toNat).map Char.toNat else [c.toNat]

def isHexUpperChar (c : Char) : Bool :=
  isDigitChar c || (decide (65 ≤ c.toNat) && decide (c.toNat ≤ 70))

def isHexLowerChar (c : Char) : Bool :=
  isDigitChar c || (decide (97 ≤ c.toNat) && decide (c.toNat ≤ 102))

namespace ReleaseEntry

/-- Models ReleaseEntry::escape_filename: names with the https scheme
pass through; anything else is percent-encoded. -/
def escape_filename (e : ReleaseEntry) : List Char :=
  if hasPfx httpsPfx e.filename_or_url then e.filename_or_url
  else encodeName e.filename_or_url

/-- Models ReleaseEntry::to_release_entry: digest, escaped name, version,
length and package type separated by single spaces, with the percentage
appended only when it differs from 100. -/
def to_release_entry (e : ReleaseEntry) : List Char :=
  let base := e.sha256_to_string ++ ' ' :: e.escape_filename ++ ' ' :: vformat e.version
    ++ ' ' :: natRepr e.length ++ ' ' :: (if e.is_delta then ['d', 'e', 'l', 't', 'a'] else ['f', 'u', 'l', 'l'])
  if e.percentage = 100 then base
  else base ++ ' ' :: intRepr e.percentage ++ ['%']

end ReleaseEntry

/-- The fixed header line the formatter emits. -/
def HEADER : List Char :=
  ("# SHA256 of the file                                             Name       Version Size  [delta/full] release%").data

namespace ReleaseEntry

/-- Remove every trailing newline; models trim_right_matches with a
one-character newline pattern. -/
def trimNl (l : List Char) : List Char :=
  (l.reverse.dropWhile (fun c => c = '\n')).reverse

/-- Models ReleaseEntry::to_releases_file: the header, a newline, then
every formatted entry followed by a newline, with all trailing newlines
trimmed from the body. -/
def to_releases_file (es : List ReleaseEntry) : List Char :=
  let body := es.foldl (fun acc e => acc ++ e.to_release_entry ++ ['\n']) []
  HEADER ++ '\n' :: trimNl body

end ReleaseEntry

/-- Worker of chunksOf1 with a fuel bound on the input length. -/
def chunksAux {α : Type} (m : Nat) : Nat → List α → List (List α)
  | 0, _ => []
  | _, [] => []
  | fuel + 1, c :: rest => (c :: rest.take m) :: chunksAux m fuel (rest.drop m)

/-- Split a list into chunks of m+1 elements; the last chunk may be
shorter. -/
def chunksOf1 {α : Type} (m : Nat) (l : List α) : List (List α) :=
  chunksAux m l.length l

def add32 (a b : Nat) : Nat := (a + b) % 4294967296

def rotr32 (x n : Nat) : Nat := x / 2 ^ n + (x % 2 ^ n) * 2 ^ (32 - n)

def shaCh (x y z : Nat) : Nat := Nat.xor (Nat.land x y) (Nat.land (Nat.xor x 4294967295) z)

def shaMaj (x y z : Nat) : Nat := Nat.xor (Nat.land x y) (Nat.xor (Nat.land x z) (Nat.land y z))

def bsig0 (x : Nat) : Nat := Nat.xor (rotr32 x 2) (Nat.xor (rotr32 x 13) (rotr32 x 22))

def bsig1 (x : Nat) : Nat := Nat.xor (rotr32 x 6) (Nat.xor (rotr32 x 11) (rotr32 x 25))

def ssig0 (x : Nat) : Nat := Nat.xor (rotr32 x 7) (Nat.xor (rotr32 x 18) (x / 2 ^ 3))

def ssig1 (x : Nat) : Nat := Nat.xor (rotr32 x 17) (Nat.xor (rotr32 x 19) (x / 2 ^ 10))

/-- The round constants of SHA-256 (FIPS 180-4). -/
def shaK : List Nat :=
  [1116352408, 1899447441, 3049323471, 3921009573, 961987163, 1508970993,
   2453635748, 2870763221, 3624381080, 310598401, 607225278, 1426881987,
   1925078388, 2162078206, 2614888103, 3248222580, 3835390401, 4022224774,
   264347078, 604807628, 770255983, 1249150122, 1555081692, 1996064986,
   2554220882, 2821834349, 2952996808, 3210313671, 3336571891, 3584528711,
   113926993, 338241895, 666307205, 773529912, 1294757372, 1396182291,
   1695183700, 1986661051, 2177026350, 2456956037, 2730485921, 2820302411,
   3259730800, 3345764771, 3516065817, 3600352804, 4094571909, 275423344,
   430227734, 506948616, 659060556, 883997877, 958139571, 1322822218,
   1537002063, 1747873779, 1955562222, 2024104815, 2227730452, 2361852424,
   2428436474, 2756734187, 3204031479, 3329325298]

/-- The initial hash state of SHA-256. -/
def shaH0 : List Nat :=
  [1779033703, 3144134277, 1013904242, 2773480762, 1359893119, 2600822924,
   528734635, 1541459225]

/-- Big-endian 32-bit words from bytes. -/
def wordsBE : List Nat → List Nat
  | b0 :: b1 :: b2 :: b3 :: rest => (((b0 * 256 + b1) * 256 + b2) * 256 + b3) :: wordsBE rest
  | _ => []

def bytesBE32 (w : Nat) : List Nat :=
  [w / 16777216 % 256, w / 65536 % 256, w / 256 % 256, w % 256]

/-- Extend the 16-word message schedule by k further words. -/
def shaExtendAux : List Nat → Nat → List Nat
  | w, 0 => w
  | w, k + 1 =>
    shaExtendAux (w ++ [add32 (add32 (ssig1 (w.getD (w.length - 2) 0)) (w.getD (w.length - 7) 0))
      (add32 (ssig0 (w.getD (w.length - 15) 0)) (w.getD (w.length - 16) 0))]) k

def shaRound (st : List Nat) (kw : Nat × Nat) : List Nat :=
  match st with
  | [a, b, c, d, e, f, g, h] =>
    let t1 := add32 h (add32 (bsig1 e) (add32 (shaCh e f g) (add32 kw.1 kw.2)))
    let t2 := add32 (bsig0 a) (shaMaj a b c)
    [add32 t1 t2, a, b, c, add32 d t1, e, f, g]
  | _ => st

/-- Compress one 64-byte block into the hash state. -/
def shaCompress (h : List Nat) (block : List Nat) : List Nat :=
  let w := shaExtendAux (wordsBE block) 48
  let st := (shaK.zip w).foldl shaRound h
  (h.zip st).map (fun p => add32 p.1 p.2)

/-- Eight big-endian bytes of the 64-bit bit length. -/
def len8 (n : Nat) : List Nat :=
  [n / 2 ^ 56 % 256, n / 2 ^ 48 % 256, n / 2 ^ 40 % 256, n / 2 ^ 32 % 256,
   n / 2 ^ 24 % 256, n / 2 ^ 16 % 256, n / 2 ^ 8 % 256, n % 256]

/-- SHA-256 padding: a 0x80 byte, zeros to 56 modulo 64, then the
bit length. -/
def shaPad (msg : List Nat) : List Nat :=
  msg ++ 0x80 :: List.replicate ((120 - (msg.length + 1) % 64) % 64) 0
    ++ len8 (msg.length * 8 % 2 ^ 64)

/-- SHA-256 of a byte sequence per FIPS 180-4; models the sha2 crate. -/
def sha256Hash (msg : List Nat) : List Nat :=
  (((chunksOf1 63 (shaPad msg)).foldl shaCompress shaH0).map bytesBE32).flatten

/-- State of an incremental SHA-256 hasher of the sha2 crate: the bytes
fed so far; the final digest is the hash of the whole fed stream. -/
structure Sha256Ctx where
  fed : List Nat

def shaInput (ctx : Sha256Ctx) (bytes : List Nat) : Sha256Ctx := ⟨ctx.fed ++ bytes⟩

def shaResult (ctx : Sha256Ctx) : List Nat := sha256Hash ctx.fed

/-- Final segment of a slash-separated path; models Path::file_name,
which skips empty and current-directory components and yields nothing
when the path ends in a parent-directory component. -/
def fileNameOf (path : List Char) : Option (List Char) :=
  let segs := (splitOnChar '/' path).filter (fun s => !s.isEmpty && s ≠ ['.'])
  match segs.getLast? with
  | none => none
  | some s => if s = ['.', '.'] then none else some s

namespace ReleaseEntry

/-- Models ReleaseEntry::from_file. The readable file is supplied as the
byte list its successive reads return; the loop feeds the hasher chunks
of at most 65536 bytes. The length comes from the file metadata, which in
this sequential model equals the content length. The name is the final
path segment, used verbatim; the source unwraps it, so the model yields
none exactly where the source would panic. The remaining fields take the
fixed defaults of the source. -/
def from_file (path : List Char) (content : List Nat) : Option ReleaseEntry :=
  let ctx := (chunksOf1 65535 content).foldl shaInput ⟨[]⟩
  match fileNameOf path with
  | none => none
  | some name => some ⟨shaResult ctx, name, ⟨0, 0, 0, [], []⟩, content.length, false, 100⟩

end ReleaseEntry

deriving instance DecidableEq for Except

/-- Outcome of one document line: nothing when the comment-stripped line
is empty and therefore skipped, else the parse result of the remainder. -/
def lineOutcome (x : List Char) : Option (Except ParseError ReleaseEntry) :=
  let r := stripComment x
  if r = [] then none else some (ReleaseEntry.parse r)

def lineErr (x : List Char) : Option ParseError :=
  match lineOutcome x with
  | some (.error e) => some e
  | _ => none

def lineOk (x : List Char) : Option ReleaseEntry :=
  match lineOutcome x with
  | some (.ok v) => some v
  | _ => none

/-- Errors of the non-skipped lines of a document, in line order. -/
def docErrs (c : List Char) : List ParseError :=
  (splitOnChar '\n' c).filterMap lineErr

/-- Entries of the successfully parsed lines of a document, in order. -/
def docOks (c : List Char) : List ReleaseEntry :=
  (splitOnChar '\n' c).filterMap lineOk

/-- Error component of a parse result. -/
def errOf {α : Type} : Except ParseError α → Option ParseError
  | .error e => some e
  | .ok _ => none

/-- First present element. -/
def firstSome : List (Option ParseError) → Option ParseError
  | [] => none
  | some e :: _ => some e
  | none :: rest => firstSome rest

/-- Field validation outcomes of a five-token line, in the evaluation
order of the source: package type, name, version, length, digest. -/
def fieldErrs5 (sha name ver size df : List Char) : List (Option ParseError) :=
  [errOf (ReleaseEntry.parse_delta_full df), errOf (ReleaseEntry.parse_name name),
   errOf (ReleaseEntry.parse_version ver), errOf (ReleaseEntry.parse_length size),
   errOf (ReleaseEntry.parse_sha256 sha)]

/-- Field validation outcomes of a six-token line, in the evaluation
order of the source: package type, name, version, length, percentage,
digest. -/
def fieldErrs6 (sha name ver size df pct : List Char) : List (Option ParseError) :=
  [errOf (ReleaseEntry.parse_delta_full df), errOf (ReleaseEntry.parse_name name),
   errOf (ReleaseEntry.parse_version ver), errOf (ReleaseEntry.parse_length size),
   errOf (ReleaseEntry.parse_percentage pct), errOf (ReleaseEntry.parse_sha256 sha)]

/-- A token that reaches the percent-decoding step of parse_name without
interference from the URL machinery: no query, fragment or backslash
character, no segment that URL parsing treats as a dot segment, and no
segment the file-URL drive-letter normalisation would rewrite (a letter
followed by a vertical bar). -/
@[reducible] def plainTok (t : List Char) : Prop :=
  (∀ c ∈ t, c ≠ '#' ∧ c ≠ '?' ∧ c ≠ '\\') ∧
  (∀ s ∈ splitOnChar '/' t,
    isDotDotSeg s = false ∧ isDotSeg s = false ∧ normDriveSeg s = s) ∧
  hasPfx httpsPfx t = false

/-- File names whose encoding round-trips exactly: nonempty, printable
ASCII, free of the percent sign (whose decoding is not injective), of
path separators and the vertical bar (which URL path parsing may
normalise, the bar through the Windows drive-letter quirk) and of
whole-name dot segments, and not carrying the https scheme marker. -/
@[reducible] def goodFilename (f : List Char) : Prop :=
  f ≠ [] ∧ f ≠ ['.'] ∧ f ≠ ['.', '.'] ∧ hasPfx httpsPfx f = false ∧
  ∀ c ∈ f, 0x20 ≤ c.toNat ∧ c.toNat ≤ 0x7E ∧ c ≠ '%' ∧ c ≠ '/' ∧ c ≠ '\\' ∧ c ≠ '|'

/-- Entries the formatter prints and the parser reads back unchanged:
the well-formedness the Rust types give (a 32-byte digest of bytes, a
64-bit length), the data-model range of the percentage, a grammatical
version and a round-trip-exact file name. -/
@[reducible] def goodEntry (e : ReleaseEntry) : Prop :=
  e.sha256.length = 32 ∧ (∀ b ∈ e.sha256, b < 256) ∧ goodFilename e.filename_or_url ∧
  vvalid e.version = true ∧ e.length < 2 ^ 64 ∧ 0 ≤ e.percentage ∧ e.percentage ≤ 100

theorem getLast?_cons_eq {α : Type} (e : α) (l : List α) :
    (e :: l).getLast? = (match l.getLast? with | some u => some u | none => some e) := by
  induction l generalizing e with
  | nil => simp
  | cons b t ih =>
    cases h : t.getLast? <;>
      simp [List.getLast?_cons_cons, ih, h]

theorem foldl_entryStep (ls : List (List Char)) :
    ∀ (e0 : Option ParseError) (a0 : List ReleaseEntry),
    ls.foldl ReleaseEntry.entryStep (e0, a0) =
      ((match (ls.filterMap lineErr).getLast? with | some e => some e | none => e0),
       a0 ++ ls.filterMap lineOk) := by
  induction ls with
  | nil => simp
  | cons x t ih =>
    intro e0 a0
    simp only [List.foldl_cons, List.filterMap_cons]
    by_cases hr : stripComment x = []
    · have h1 : lineErr x = none := by simp [lineErr, lineOutcome, hr]
      have h2 : lineOk x = none := by simp [lineOk, lineOutcome, hr]
      have hstep : ReleaseEntry.entryStep (e0, a0) x = (e0, a0) := by
        simp [ReleaseEntry.entryStep, hr]
      rw [hstep, ih, h1, h2]
    · cases hp : ReleaseEntry.parse (stripComment x) with
      | error e =>
        have h1 : lineErr x = some e := by simp [lineErr, lineOutcome, hr, hp]
        have h2 : lineOk x = none := by simp [lineOk, lineOutcome, hr, hp]
        have hstep : ReleaseEntry.entryStep (e0, a0) x = (some e, a0) := by
          simp [ReleaseEntry.entryStep, hr, hp]
        rw [hstep, ih, h1, h2]
        cases h : (t.filterMap lineErr).getLast? <;>
          simp [getLast?_cons_eq, h]
      | ok v =>
        have h1 : lineErr x = none := by simp [lineErr, lineOutcome, hr, hp]
        have h2 : lineOk x = some v := by simp [lineOk, lineOutcome, hr, hp]
        have hstep : ReleaseEntry.entryStep (e0, a0) x = (e0, a0 ++ [v]) := by
          simp [ReleaseEntry.entryStep, hr, hp]
        rw [hstep, ih, h1, h2]
        simp

theorem parse_entries_eq (c : List Char) :
    ReleaseEntry.parse_entries c =
      (match (docErrs c).getLast? with
       | some e => .error e
       | none => .ok (docOks c)) := by
  unfold ReleaseEntry.parse_entries docErrs docOks
  rw [foldl_entryStep]
  cases h : ((splitOnChar '\n' c).filterMap lineErr).getLast? <;> simp [h]

/-- C1 (corrected): when a document contains failing lines, parse_entries
returns an error and no entries, but the error is the one of the LAST
failing line; every line is still processed. -/
theorem c1_last_error (c : List Char) (e : ParseError)
    (h : (docErrs c).getLast? = some e) :
    ReleaseEntry.parse_entries c = .error e := by
  rw [parse_entries_eq, h]

theorem c1_last_error_witness :
    (docErrs ("x y\n0000000000000000000000000000000000000000000000000000000000000000 f.7z 1.2.3 5 nope".data)).getLast? = some .packageTypeError ∧
    ReleaseEntry.parse_entries ("x y\n0000000000000000000000000000000000000000000000000000000000000000 f.7z 1.2.3 5 nope".data) = .error .packageTypeError :=
  ⟨rfl, c1_last_error _ _ rfl⟩

/-- C1 as stated is false: in this document the first failing line fails
with the token-count error, yet parse_entries returns the package-type
error of the later failing line, not the error of the first failure. -/
theorem c1_counterexample :
    ReleaseEntry.parse ("p q".data) = .error .invalidEntryFormat ∧
    ReleaseEntry.parse_entries ("p q\n0000000000000000000000000000000000000000000000000000000000000000 g.7z 1.2.3 5 bogus".data) = .error .packageTypeError ∧
    ParseError.packageTypeError ≠ ParseError.invalidEntryFormat :=
  ⟨rfl, rfl, by decide⟩

/-- C7 (confirmed): a line whose token count is neither five nor six
parses to the invalid-entry-format error; the embedded parser is a total
function, so no crash is possible. -/
theorem c7_invalid_token_count (s : List Char)
    (h : (splitWhitespace s).length ≠ 5 ∧ (splitWhitespace s).length ≠ 6) :
    ReleaseEntry.parse s = .error .invalidEntryFormat := by
  obtain ⟨h5, h6⟩ := h
  rcases htoks : splitWhitespace s with _ | ⟨a, _ | ⟨b, _ | ⟨c, _ | ⟨d, _ | ⟨e2, _ | ⟨f, _ | ⟨g, rest⟩⟩⟩⟩⟩⟩⟩
  · simp [ReleaseEntry.parse, htoks]
  · simp [ReleaseEntry.parse, htoks]
  · simp [ReleaseEntry.parse, htoks]
  · simp [ReleaseEntry.parse, htoks]
  · simp [ReleaseEntry.parse, htoks]
  · rw [htoks] at h5
    simp at h5
  · rw [htoks] at h6
    simp at h6
  · simp [ReleaseEntry.parse, htoks]

theorem c7_invalid_token_count_witness :
    ((splitWhitespace ("a b".data)).length ≠ 5 ∧ (splitWhitespace ("a b".data)).length ≠ 6) ∧
    ReleaseEntry.parse ("a b".data) = .error .invalidEntryFormat :=
  ⟨by decide, c7_invalid_token_count _ (by decide)⟩

/-- C10 (confirmed): a line of white space followed by a comment strips
to a nonempty all-blank remainder, which is not skipped and fails the
token-count check, so a document that contains such a line fails as a
whole even though every other line is valid. -/
theorem c10_comment_after_whitespace :
    stripComment ("  # note".data) = "  ".data ∧
    ("  ".data : List Char) ≠ [] ∧
    ReleaseEntry.parse ("  ".data) = .error .invalidEntryFormat ∧
    ReleaseEntry.parse_entries ("e4548fba3f902e63e3fff36db7cbbd1837493e21c51f0751e51ee1483ddd0f35 myproject.7z 1.2.3 12345 full\n  # note".data) = .error .invalidEntryFormat :=
  ⟨rfl, by decide, rfl, rfl⟩

/-- C2 as stated is false: a sixth token with no trailing percent sign is
not rejected; the percentage parser accepts it and the whole line parses,
where the claim requires the invalid-percentage failure. -/
theorem c2_counterexample :
    ReleaseEntry.parse_percentage ("50".data) = .ok 50 ∧
    (ReleaseEntry.parse ("e4548fba3f902e63e3fff36db7cbbd1837493e21c51f0751e51ee1483ddd0f35 f.7z 1.2.3 5 full 50".data)).map (fun e => e.percentage) = .ok 50 :=
  ⟨rfl, rfl⟩

theorem parse_ok_inv (s : List Char) (e : ReleaseEntry) (h : ReleaseEntry.parse s = .ok e) :
    (∃ sha name ver size df,
      splitWhitespace s = [sha, name, ver, size, df] ∧
      ReleaseEntry.parse_delta_full df = .ok e.is_delta ∧
      ReleaseEntry.parse_name name = .ok e.filename_or_url ∧
      ReleaseEntry.parse_version ver = .ok e.version ∧
      ReleaseEntry.parse_length size = .ok e.length ∧
      ReleaseEntry.parse_sha256 sha = .ok e.sha256 ∧ e.percentage = 100) ∨
    (∃ sha name ver size df pct,
      splitWhitespace s = [sha, name, ver, size, df, pct] ∧
      ReleaseEntry.parse_delta_full df = .ok e.is_delta ∧
      ReleaseEntry.parse_name name = .ok e.filename_or_url ∧
      ReleaseEntry.parse_version ver = .ok e.version ∧
      ReleaseEntry.parse_length size = .ok e.length ∧
      ReleaseEntry.parse_percentage pct = .ok e.percentage ∧
      ReleaseEntry.parse_sha256 sha = .ok e.sha256) := by
  rcases htoks : splitWhitespace s with _ | ⟨a, _ | ⟨b, _ | ⟨c, _ | ⟨d, _ | ⟨e2, _ | ⟨f, _ | ⟨g, rest⟩⟩⟩⟩⟩⟩⟩ <;>
    simp only [ReleaseEntry.parse, htoks] at h
  · exact absurd h (by simp)
  · exact absurd h (by simp)
  · exact absurd h (by simp)
  · exact absurd h (by simp)
  · exact absurd h (by simp)
  · left
    cases hd : ReleaseEntry.parse_delta_full e2 with
    | error u => simp [hd] at h
    | ok dv =>
      cases hn : ReleaseEntry.parse_name b with
      | error u => simp [hd, hn] at h
      | ok nv =>
        cases hv : ReleaseEntry.parse_version c with
        | error u => simp [hd, hn, hv] at h
        | ok vv =>
          cases hl : ReleaseEntry.parse_length d with
          | error u => simp [hd, hn, hv, hl] at h
          | ok lv =>
            cases hs : ReleaseEntry.parse_sha256 a with
            | error u => simp [hd, hn, hv, hl, hs] at h
            | ok sv =>
              simp only [hd, hn, hv, hl, hs] at h
              injection h with he
              subst he
              exact ⟨a, b, c, d, e2, rfl, hd, hn, hv, hl, hs, rfl⟩
  · right
    cases hd : ReleaseEntry.parse_delta_full e2 with
    | error u => simp [hd] at h
    | ok dv =>
      cases hn : ReleaseEntry.parse_name b with
      | error u => simp [hd, hn] at h
      | ok nv =>
        cases hv : ReleaseEntry.parse_version c with
        | error u => simp [hd, hn, hv] at h
        | ok vv =>
          cases hl : ReleaseEntry.parse_length d with
          | error u => simp [hd, hn, hv, hl] at h
          | ok lv =>
            cases hp : ReleaseEntry.parse_percentage f with
            | error u => simp [hd, hn, hv, hl, hp] at h
            | ok pv =>
              cases hs : ReleaseEntry.parse_sha256 a with
              | error u => simp [hd, hn, hv, hl, hp, hs] at h
              | ok sv =>
                simp only [hd, hn, hv, hl, hp, hs] at h
                injection h with he
                subst he
                exact ⟨a, b, c, d, e2, f, rfl, hd, hn, hv, hl, hp, hs⟩
  · exact absurd h (by simp)

theorem parse_sha256_ok (t : List Char) (bs : List Nat)
    (h : ReleaseEntry.parse_sha256 t = .ok bs) : bs.length = 32 := by
  unfold ReleaseEntry.parse_sha256 at h
  cases hf : fromHex t with
  | none => simp [hf] at h
  | some bs2 =>
    rw [hf] at h
    by_cases hl : bs2.length = 32
    · simp [hl] at h
      rw [← h]
      exact hl
    · simp [hl] at h

theorem parse_percentage_ok (t : List Char) (p : Int)
    (h : ReleaseEntry.parse_percentage t = .ok p) : 0 ≤ p ∧ p ≤ 100 := by
  unfold ReleaseEntry.parse_percentage at h
  cases hi : parse_i32_opt (ReleaseEntry.trimPct t) with
  | none => simp [hi] at h
  | some n =>
    rw [hi] at h
    by_cases hr : n > 100 ∨ n < 0
    · simp [hr] at h
    · simp [hr] at h
      omega

/-- C9 (confirmed): every entry produced by parse, and hence every entry
produced by parse_entries, has a 32-byte digest and a percentage between
0 and 100. -/
theorem c9_invariants :
    (∀ s e, ReleaseEntry.parse s = .ok e →
      e.sha256.length = 32 ∧ 0 ≤ e.percentage ∧ e.percentage ≤ 100) ∧
    (∀ c es, ReleaseEntry.parse_entries c = .ok es → ∀ e ∈ es,
      e.sha256.length = 32 ∧ 0 ≤ e.percentage ∧ e.percentage ≤ 100) := by
  have hparse : ∀ s e, ReleaseEntry.parse s = .ok e →
      e.sha256.length = 32 ∧ 0 ≤ e.percentage ∧ e.percentage ≤ 100 := by
    intro s e h
    rcases parse_ok_inv s e h with
      ⟨sha, name, ver, size, df, ht, hd, hn, hv, hl, hs, hp⟩ |
      ⟨sha, name, ver, size, df, pct, ht, hd, hn, hv, hl, hp, hs⟩
    · exact ⟨parse_sha256_ok _ _ hs, by omega, by omega⟩
    · have := parse_percentage_ok _ _ hp
      exact ⟨parse_sha256_ok _ _ hs, this.1, this.2⟩
  refine ⟨hparse, ?_⟩
  intro c es hes e he
  rw [parse_entries_eq] at hes
  cases hl : (docErrs c).getLast? with
  | some u => rw [hl] at hes; exact absurd hes (by simp)
  | none =>
    rw [hl] at hes
    injection hes with hes2
    rw [← hes2] at he
    rcases List.mem_filterMap.mp he with ⟨x, hx, hox⟩
    unfold lineOk lineOutcome at hox
    by_cases hr : stripComment x = []
    · simp [hr] at hox
    · simp only [hr, if_neg] at hox
      cases hpx : ReleaseEntry.parse (stripComment x) with
      | error u => simp [hpx] at hox
      | ok v =>
        simp [hpx] at hox
        rw [← hox]
        exact hparse _ _ hpx

theorem c9_invariants_witness :
    ReleaseEntry.parse ("e4548fba3f902e63e3fff36db7cbbd1837493e21c51f0751e51ee1483ddd0f35 w.7z 1.2.3 7 delta 9%".data) =
      .ok ⟨[0xe4, 0x54, 0x8f, 0xba, 0x3f, 0x90, 0x2e, 0x63, 0xe3, 0xff, 0xf3, 0x6d, 0xb7, 0xcb,
            0xbd, 0x18, 0x37, 0x49, 0x3e, 0x21, 0xc5, 0x1f, 0x07, 0x51, 0xe5, 0x1e, 0xe1, 0x48,
            0x3d, 0xdd, 0x0f, 0x35], "w.7z".data, ⟨1, 2, 3, [], []⟩, 7, true, 9⟩ ∧
    ([0xe4, 0x54, 0x8f, 0xba, 0x3f, 0x90, 0x2e, 0x63, 0xe3, 0xff, 0xf3, 0x6d, 0xb7, 0xcb,
      0xbd, 0x18, 0x37, 0x49, 0x3e, 0x21, 0xc5, 0x1f, 0x07, 0x51, 0xe5, 0x1e, 0xe1, 0x48,
      0x3d, 0xdd, 0x0f, 0x35] : List Nat).length = 32 ∧ (0 : Int) ≤ 9 ∧ (9 : Int) ≤ 100 := by
  have h := c9_invariants.1
    ("e4548fba3f902e63e3fff36db7cbbd1837493e21c51f0751e51ee1483ddd0f35 w.7z 1.2.3 7 delta 9%".data)
    ⟨[0xe4, 0x54, 0x8f, 0xba, 0x3f, 0x90, 0x2e, 0x63, 0xe3, 0xff, 0xf3, 0x6d, 0xb7, 0xcb,
      0xbd, 0x18, 0x37, 0x49, 0x3e, 0x21, 0xc5, 0x1f, 0x07, 0x51, 0xe5, 0x1e, 0xe1, 0x48,
      0x3d, 0xdd, 0x0f, 0x35], "w.7z".data, ⟨1, 2, 3, [], []⟩, 7, true, 9⟩ rfl
  exact ⟨rfl, h.1, h.2.1, h.2.2⟩

/-- C2 (corrected): the percent suffix is optional, not required. Every
trailing percent sign is stripped; the remainder must parse as an i32 in
the range 0 to 100, the range error taking priority only over nothing;
a five-token line defaults the percentage to 100. -/
theorem c2_percentage_behaviour :
    (∀ t n, parse_i32_opt (ReleaseEntry.trimPct t) = some n → 0 ≤ n → n ≤ 100 →
      ReleaseEntry.parse_percentage t = .ok n) ∧
    (∀ t n, parse_i32_opt (ReleaseEntry.trimPct t) = some n → (100 < n ∨ n < 0) →
      ReleaseEntry.parse_percentage t = .error .percentRangeError) ∧
    (∀ t, parse_i32_opt (ReleaseEntry.trimPct t) = none →
      ReleaseEntry.parse_percentage t = .error .percentIntError) ∧
    (∀ s sha name ver size df e, splitWhitespace s = [sha, name, ver, size, df] →
      ReleaseEntry.parse s = .ok e → e.percentage = 100) := by
  refine ⟨?_, ?_, ?_, ?_⟩
  · intro t n hi h0 h100
    unfold ReleaseEntry.parse_percentage
    rw [hi]
    have : ¬ (n > 100 ∨ n < 0) := by omega
    simp [this]
  · intro t n hi hr
    unfold ReleaseEntry.parse_percentage
    rw [hi]
    have : n > 100 ∨ n < 0 := by omega
    simp [this]
  · intro t hi
    unfold ReleaseEntry.parse_percentage
    rw [hi]
  · intro s sha name ver size df e ht h
    rcases parse_ok_inv s e h with
      ⟨sha2, name2, ver2, size2, df2, ht2, _, _, _, _, _, hp⟩ |
      ⟨sha2, name2, ver2, size2, df2, pct2, ht2, _⟩
    · exact hp
    · rw [ht] at ht2
      exact absurd (congrArg List.length ht2) (by simp)

theorem c2_percentage_behaviour_witness :
    ReleaseEntry.parse_percentage ("45".data) = .ok 45 ∧
    ReleaseEntry.parse_percentage ("500%".data) = .error .percentRangeError ∧
    ReleaseEntry.parse_percentage ("x%".data) = .error .percentIntError :=
  ⟨c2_percentage_behaviour.1 _ _ rfl (by decide) (by decide),
   c2_percentage_behaviour.2.1 _ _ rfl (by decide),
   c2_percentage_behaviour.2.2.1 _ rfl⟩

/-- C3 as stated is false: a token decoding to a name with a leading
slash does not keep it; every leading separator is stripped, so the
decoded name of this token would have to be the five characters of
slash-f-o-o under the claim, yet only foo remains. -/
theorem c3_counterexample :
    ReleaseEntry.parse_name ("%2Ffoo".data) = .ok ("foo".data) ∧
    ("foo".data : List Char) ≠ "/foo".data :=
  ⟨rfl, by decide⟩

theorem takeWhile_of_all {α : Type} (p : α → Bool) (l : List α)
    (h : ∀ c ∈ l, p c = true) : l.takeWhile p = l := by
  induction l with
  | nil => rfl
  | cons c t ih =>
    simp only [List.takeWhile, h c (by simp)]
    rw [ih (fun x hx => h x (by simp [hx]))]

theorem map_of_all {α : Type} (f : α → α) (l : List α)
    (h : ∀ c ∈ l, f c = c) : l.map f = l := by
  induction l with
  | nil => rfl
  | cons c t ih =>
    simp only [List.map, h c (by simp)]
    rw [ih (fun x hx => h x (by simp [hx]))]

theorem splitOnChar_ne_nil (sep : Char) (l : List Char) : splitOnChar sep l ≠ [] := by
  cases l with
  | nil => simp [splitOnChar]
  | cons c t =>
    simp only [splitOnChar]
    by_cases hc : c = sep
    · simp [hc]
    · simp only [hc, if_false]
      cases splitOnChar sep t <;> simp

theorem splitOnChar_no_sep (sep : Char) (l : List Char)
    (h : ∀ c ∈ l, c ≠ sep) : splitOnChar sep l = [l] := by
  induction l with
  | nil => rfl
  | cons c t ih =>
    have hc : c ≠ sep := h c (by simp)
    simp only [splitOnChar, hc, if_false]
    rw [ih (fun x hx => h x (by simp [hx]))]

theorem splitOnChar_reconstruct (sep : Char) (l : List Char) :
    ((splitOnChar sep l).map (fun s => sep :: s)).flatten = sep :: l := by
  induction l with
  | nil => simp [splitOnChar]
  | cons c t ih =>
    by_cases hc : c = sep
    · subst hc
      have hsc : splitOnChar c (c :: t) = [] :: splitOnChar c t := by
        simp [splitOnChar]
      rw [hsc, List.map_cons, List.flatten_cons, ih]
      rfl
    · cases hsp : splitOnChar sep t with
      | nil => exact absurd hsp (splitOnChar_ne_nil sep t)
      | cons u us =>
        have hsc : splitOnChar sep (c :: t) = (c :: u) :: us := by
          simp [splitOnChar, hc, hsp]
        rw [hsp] at ih
        rw [hsc]
        simp only [List.map_cons, List.flatten_cons, List.cons_append] at ih ⊢
        injection ih with ih1 ih2
        simp [ih2]

theorem procSegs_no_dots (segs : List (List Char)) :
    ∀ acc, (∀ s ∈ segs, isDotDotSeg s = false ∧ isDotSeg s = false ∧ normDriveSeg s = s) →
    procSegs acc segs = acc ++ segs := by
  induction segs with
  | nil => intro acc _; simp [procSegs]
  | cons s t ih =>
    intro acc h
    have hs := h s (by simp)
    cases t with
    | nil =>
      simp only [procSegs, hs.1, hs.2.1, Bool.false_eq_true, if_false]
      rw [hs.2.2, ite_self]
    | cons s2 t2 =>
      simp only [procSegs, hs.1, hs.2.1, Bool.false_eq_true, if_false]
      rw [hs.2.2, ite_self]
      rw [ih (acc ++ [s]) (fun x hx => h x (by simp [hx]))]
      simp

theorem filePathOf_plain (t : List Char)
    (hq : ∀ c ∈ t, c ≠ '#' ∧ c ≠ '?' ∧ c ≠ '\\')
    (hdot : ∀ s ∈ splitOnChar '/' t,
      isDotDotSeg s = false ∧ isDotSeg s = false ∧ normDriveSeg s = s) :
    filePathOf t = '/' :: t := by
  simp only [filePathOf]
  rw [takeWhile_of_all _ t (fun c hc => by simp [(hq c hc).1])]
  rw [takeWhile_of_all _ t (fun c hc => by simp [(hq c hc).2.1])]
  rw [map_of_all _ t (fun c hc => by simp [(hq c hc).2.2])]
  rw [procSegs_no_dots _ _ hdot]
  rw [List.nil_append]
  exact splitOnChar_reconstruct '/' t

/-- C3 (corrected): for a token without the https marker whose segments
leave the URL path machinery inert (no query, fragment or backslash
character, no dot segment and no unnormalised Windows drive letter
segment), parse_name percent-decodes the slash-prefixed token to UTF-8
and strips EVERY leading slash of the result, not exactly one; a decoded
name beginning with separators keeps none of them. -/
theorem c3_decode_strip_all (t s : List Char)
    (hp : plainTok t)
    (hd : utf8Decode (percentDecode (utf8Encode ('/' :: t))) = some s) :
    ReleaseEntry.parse_name t = .ok (s.dropWhile (fun c => c = '/')) := by
  obtain ⟨hq, hdot, https⟩ := hp
  unfold ReleaseEntry.parse_name
  rw [filePathOf_plain t hq hdot, hd, https]
  simp

theorem c3_decode_strip_all_witness :
    plainTok ("%2F%2Ffoo".data) ∧
    ReleaseEntry.parse_name ("%2F%2Ffoo".data) = .ok ("foo".data) := by
  refine ⟨by decide, ?_⟩
  have h := c3_decode_strip_all ("%2F%2Ffoo".data) ("///foo".data) (by decide) (by decide)
  exact h

/-- C4 (confirmed): on a five or six token line, parse returns exactly
the error of the earliest failing field in the fixed order package type,
name, version, length, percentage, digest, matching the evaluation order
of the struct literal of the source. -/
theorem c4_error_order :
    (∀ s sha name ver size df e, splitWhitespace s = [sha, name, ver, size, df] →
      firstSome (fieldErrs5 sha name ver size df) = some e →
      ReleaseEntry.parse s = .error e) ∧
    (∀ s sha name ver size df pct e, splitWhitespace s = [sha, name, ver, size, df, pct] →
      firstSome (fieldErrs6 sha name ver size df pct) = some e →
      ReleaseEntry.parse s = .error e) := by
  constructor
  · intro s sha name ver size df e ht hfs
    simp only [fieldErrs5] at hfs
    cases hd : ReleaseEntry.parse_delta_full df with
    | error u =>
      simp only [hd, errOf, firstSome] at hfs
      injection hfs with hue
      simp [ReleaseEntry.parse, ht, hd, hue]
    | ok dv =>
      simp only [hd, errOf, firstSome] at hfs
      cases hn : ReleaseEntry.parse_name name with
      | error u =>
        simp only [hn, firstSome] at hfs
        injection hfs with hue
        simp [ReleaseEntry.parse, ht, hd, hn, hue]
      | ok nv =>
        simp only [hn, firstSome] at hfs
        cases hv : ReleaseEntry.parse_version ver with
        | error u =>
          simp only [hv, firstSome] at hfs
          injection hfs with hue
          simp [ReleaseEntry.parse, ht, hd, hn, hv, hue]
        | ok vv =>
          simp only [hv, firstSome] at hfs
          cases hl : ReleaseEntry.parse_length size with
          | error u =>
            simp only [hl, firstSome] at hfs
            injection hfs with hue
            simp [ReleaseEntry.parse, ht, hd, hn, hv, hl, hue]
          | ok lv =>
            simp only [hl, firstSome] at hfs
            cases hs : ReleaseEntry.parse_sha256 sha with
            | error u =>
              simp only [hs, firstSome] at hfs
              injection hfs with hue
              simp [ReleaseEntry.parse, ht, hd, hn, hv, hl, hs, hue]
            | ok sv =>
              simp only [hs, firstSome] at hfs
              exact absurd hfs (by simp)
  · intro s sha name ver size df pct e ht hfs
    simp only [fieldErrs6] at hfs
    cases hd : ReleaseEntry.parse_delta_full df with
    | error u =>
      simp only [hd, errOf, firstSome] at hfs
      injection hfs with hue
      simp [ReleaseEntry.parse, ht, hd, hue]
    | ok dv =>
      simp only [hd, errOf, firstSome] at hfs
      cases hn : ReleaseEntry.parse_name name with
      | error u =>
        simp only [hn, firstSome] at hfs
        injection hfs with hue
        simp [ReleaseEntry.parse, ht, hd, hn, hue]
      | ok nv =>
        simp only [hn, firstSome] at hfs
        cases hv : ReleaseEntry.parse_version ver with
        | error u =>
          simp only [hv, firstSome] at hfs
          injection hfs with hue
          simp [ReleaseEntry.parse, ht, hd, hn, hv, hue]
        | ok vv =>
          simp only [hv, firstSome] at hfs
          cases hl : ReleaseEntry.parse_length size with
          | error u =>
            simp only [hl, firstSome] at hfs
            injection hfs with hue
            simp [ReleaseEntry.parse, ht, hd, hn, hv, hl, hue]
          | ok lv =>
            simp only [hl, firstSome] at hfs
            cases hp : ReleaseEntry.parse_percentage pct with
            | error u =>
              simp only [hp, firstSome] at hfs
              injection hfs with hue
              simp [ReleaseEntry.parse, ht, hd, hn, hv, hl, hp, hue]
            | ok pv =>
              simp only [hp, firstSome] at hfs
              cases hs : ReleaseEntry.parse_sha256 sha with
              | error u =>
                simp only [hs, firstSome] at hfs
                injection hfs with hue
                simp [ReleaseEntry.parse, ht, hd, hn, hv, hl, hp, hs, hue]
              | ok sv =>
                simp only [hs, firstSome] at hfs
                exact absurd hfs (by simp)

theorem c4_error_order_witness :
    splitWhitespace ("zz %FF 1.2 -3 nope 1a%".data) =
      ["zz".data, "%FF".data, "1.2".data, "-3".data, "nope".data, "1a%".data] ∧
    ReleaseEntry.parse_delta_full ("nope".data) = .error .packageTypeError ∧
    ReleaseEntry.parse_name ("%FF".data) = .error .nameError ∧
    ReleaseEntry.parse_version ("1.2".data) = .error .versionError ∧
    ReleaseEntry.parse_length ("-3".data) = .error .lengthError ∧
    ReleaseEntry.parse_percentage ("1a%".data) = .error .percentIntError ∧
    ReleaseEntry.parse_sha256 ("zz".data) = .error .shaHexError ∧
    ReleaseEntry.parse ("zz %FF 1.2 -3 nope 1a%".data) = .error .packageTypeError := by
  refine ⟨by decide, rfl, rfl, rfl, rfl, rfl, rfl, ?_⟩
  exact c4_error_order.2 ("zz %FF 1.2 -3 nope 1a%".data) ("zz".data) ("%FF".data)
    ("1.2".data) ("-3".data) ("nope".data) ("1a%".data) .packageTypeError
    (by decide) (by decide)

/-- C6 as stated is false: this entry has an ASCII file name with no
control characters, its formatted line parses, yet re-formatting yields a
different line, because the token a percent 2F b decodes to a slash that
re-encodes differently. -/
theorem c6_counterexample :
    (ReleaseEntry.parse (ReleaseEntry.to_release_entry
        ⟨List.replicate 32 0, "a%2Fb".data, ⟨0, 0, 0, [], []⟩, 1, false, 100⟩)).map
      ReleaseEntry.to_release_entry =
      .ok ("0000000000000000000000000000000000000000000000000000000000000000 a/b 0.0.0 1 full".data) ∧
    (ReleaseEntry.parse (ReleaseEntry.to_release_entry
        ⟨List.replicate 32 0, "a%2Fb".data, ⟨0, 0, 0, [], []⟩, 1, false, 100⟩)).map
      ReleaseEntry.to_release_entry ≠
      .ok (ReleaseEntry.to_release_entry
        ⟨List.replicate 32 0, "a%2Fb".data, ⟨0, 0, 0, [], []⟩, 1, false, 100⟩) := by
  constructor
  · rfl
  · decide

/-- C5 as stated is false: this document is the exact output of the
formatter on one entry, it parses back successfully, yet re-formatting
the parsed entries does not reproduce the document. -/
theorem c5_counterexample :
    (ReleaseEntry.parse_entries (ReleaseEntry.to_releases_file
        [⟨List.replicate 32 0, "x%2Fy".data, ⟨0, 0, 0, [], []⟩, 1, false, 100⟩])).map
      ReleaseEntry.to_releases_file ≠
      .ok (ReleaseEntry.to_releases_file
        [⟨List.replicate 32 0, "x%2Fy".data, ⟨0, 0, 0, [], []⟩, 1, false, 100⟩]) := by
  decide

theorem char_toNat_inj (a b : Char) (h : a.toNat = b.toNat) : a = b := by
  have ha := Char.ofNat_toNat a
  rw [← ha, h, Char.ofNat_toNat]

theorem rustWs_false_of (c : Char) (h1 : 33 ≤ c.toNat) (h2 : c.toNat ≤ 126) :
    rustWs c = false := by
  simp [rustWs, List.contains]
  omega

theorem digit_char_spec (n : Nat) (h : n < 10) :
    (Char.ofNat (48 + n)).toNat = 48 + n ∧ isDigitChar (Char.ofNat (48 + n)) = true := by
  interval_cases n <;> exact ⟨by decide, by decide⟩

theorem hexVal_lower (d : Nat) (h : d < 16) : hexVal (hexDigitLower d) = some d := by
  interval_cases d <;> decide

theorem hexLower_class (d : Nat) (h : d < 16) : isHexLowerChar (hexDigitLower d) = true := by
  interval_cases d <;> decide

theorem hexValByte_upper (d : Nat) (h : d < 16) :
    hexValByte ((hexDigitUpper d).toNat) = some d := by
  interval_cases d <;> decide

theorem hexUpper_class (d : Nat) (h : d < 16) : isHexUpperChar (hexDigitUpper d) = true := by
  interval_cases d <;> decide

theorem natReprAux_irrel : ∀ f1 f2 n : Nat, n < f1 → n < f2 →
    natReprAux f1 n = natReprAux f2 n := by
  intro f1
  induction f1 with
  | zero => intro f2 n h1 h2; omega
  | succ fu ih =>
    intro f2 n h1 h2
    cases f2 with
    | zero => omega
    | succ fv =>
      simp only [natReprAux]
      by_cases hn : n < 10
      · simp [hn]
      · simp only [hn, if_false]
        have hd := Nat.div_lt_self (show 0 < n by omega) (show 1 < 10 by omega)
        rw [ih fv (n / 10) (by omega) (by omega)]

theorem natRepr_eq (n : Nat) : natRepr n =
    if n < 10 then [Char.ofNat (48 + n)]
    else natRepr (n / 10) ++ [Char.ofNat (48 + n % 10)] := by
  conv_lhs => unfold natRepr
  simp only [natReprAux]
  by_cases hn : n < 10
  · simp [hn]
  · simp only [hn, if_false]
    have hd := Nat.div_lt_self (show 0 < n by omega) (show 1 < 10 by omega)
    congr 1
    unfold natRepr
    exact natReprAux_irrel n (n / 10 + 1) (n / 10) (by omega) (by omega)

theorem digitsVal_append_one (a : List Char) (c : Char) :
    digitsVal (a ++ [c]) = 10 * digitsVal a + (c.toNat - 48) := by
  simp [digitsVal, List.foldl_append]

theorem natRepr_spec : ∀ n : Nat, natRepr n ≠ [] ∧ (∀ c ∈ natRepr n, isDigitChar c = true) ∧
    digitsVal (natRepr n) = n ∧ ((natRepr n).head? = some '0' → n = 0) := by
  intro n
  induction n using Nat.strong_induction_on with
  | _ n ih =>
    rw [natRepr_eq]
    by_cases hn : n < 10
    · simp only [hn, if_true]
      obtain ⟨ht, hd⟩ := digit_char_spec n hn
      refine ⟨by simp, ?_, ?_, ?_⟩
      · intro c hc
        simp at hc
        rw [hc]
        exact hd
      · simp [digitsVal, ht]
      · intro hh
        simp at hh
        have : (Char.ofNat (48 + n)).toNat = ('0' : Char).toNat := by rw [hh]
        rw [ht] at this
        have h0 : ('0' : Char).toNat = 48 := by decide
        omega
    · simp only [hn, if_false]
      have hdlt := Nat.div_lt_self (show 0 < n by omega) (show 1 < 10 by omega)
      obtain ⟨ih1, ih2, ih3, ih4⟩ := ih (n / 10) hdlt
      obtain ⟨hmt, hmd⟩ := digit_char_spec (n % 10) (Nat.mod_lt n (by omega))
      refine ⟨by simp, ?_, ?_, ?_⟩
      · intro c hc
        rcases List.mem_append.mp hc with h | h
        · exact ih2 c h
        · simp at h
          rw [h]
          exact hmd
      · rw [digitsVal_append_one, ih3, hmt]
        omega
      · intro hh
        cases hr : natRepr (n / 10) with
        | nil => exact absurd hr ih1
        | cons x xs =>
          rw [hr] at hh
          simp at hh
          rw [hr] at ih4
          have := ih4 (by simp [hh])
          omega

theorem parseNat_natRepr (n : Nat) : parseNat (natRepr n) = some n := by
  obtain ⟨h1, h2, h3, _⟩ := natRepr_spec n
  simp [parseNat, h1, List.all_eq_true.mpr h2, h3]

theorem natRepr_head_digit (n : Nat) :
    ∃ c r, natRepr n = c :: r ∧ isDigitChar c = true := by
  obtain ⟨h1, h2, _, _⟩ := natRepr_spec n
  cases hr : natRepr n with
  | nil => exact absurd hr h1
  | cons c r =>
    refine ⟨c, r, rfl, h2 c ?_⟩
    rw [hr]
    simp

theorem parse_u64_natRepr (n : Nat) (h : n < 2 ^ 64) :
    parse_u64_opt (natRepr n) = some n := by
  obtain ⟨c, r, hr, hc⟩ := natRepr_head_digit n
  have hplus : (natRepr n).head? ≠ some '+' := by
    rw [hr, List.head?_cons]
    intro hcc
    injection hcc with hcc2
    rw [hcc2] at hc
    exact absurd hc (by decide)
  simp only [parse_u64_opt, if_neg hplus]
  rw [parseNat_natRepr]
  show (if n < 2 ^ 64 then some n else none) = some n
  rw [if_pos h]

theorem parseNumStrict_natRepr (n : Nat) (h : n < 2 ^ 64) :
    parseNumStrict (natRepr n) = some n := by
  obtain ⟨_, _, _, h0⟩ := natRepr_spec n
  have hl : ¬ (1 < (natRepr n).length ∧ (natRepr n).head? = some '0') := by
    rintro ⟨hlen, hhead⟩
    have hz := h0 hhead
    subst hz
    rw [show natRepr 0 = ['0'] from by rw [natRepr_eq]; decide] at hlen
    simp at hlen
  unfold parseNumStrict
  rw [parseNat_natRepr]
  show (if 1 < (natRepr n).length ∧ (natRepr n).head? = some '0' then none
    else if n < 2 ^ 64 then some n else none) = some n
  rw [if_neg hl, if_pos h]

theorem fromHex_roundtrip (bs : List Nat) (h : ∀ b ∈ bs, b < 256) :
    fromHex ((bs.map byteHexLower).flatten) = some bs := by
  induction bs with
  | nil => rfl
  | cons b t ih =>
    have hb : b < 256 := h b (by simp)
    have hdiv : b / 16 < 16 := by omega
    have hmod : b % 16 < 16 := by omega
    simp only [List.map_cons, List.flatten_cons, byteHexLower, List.cons_append,
      List.nil_append]
    simp only [fromHex, hexVal_lower _ hdiv, hexVal_lower _ hmod,
      ih (fun x hx => h x (by simp [hx]))]
    congr 1
    congr 1
    omega

theorem splitWsAux_consume (t : List Char) :
    ∀ (x cur : List Char), (∀ c ∈ t, rustWs c = false) →
    splitWsAux (t ++ x) cur = splitWsAux x (t.reverse ++ cur) := by
  induction t with
  | nil => intro x cur _; simp
  | cons c t2 ih =>
    intro x cur h
    have hc : rustWs c = false := h c (by simp)
    simp only [List.cons_append, splitWsAux, hc, Bool.false_eq_true, if_false,
      List.append_eq]
    rw [ih x (c :: cur) (fun d hd => h d (by simp [hd]))]
    simp


theorem splitWs_single (t : List Char) (hne : t ≠ [])
    (h : ∀ c ∈ t, rustWs c = false) : splitWhitespace t = [t] := by
  unfold splitWhitespace
  have := splitWsAux_consume t [] [] h
  rw [List.append_nil] at this
  rw [this]
  simp only [splitWsAux, List.append_nil]
  have : t.reverse ≠ [] := by simp [hne]
  simp [this]

theorem splitWs_sep (t r : List Char) (hne : t ≠ [])
    (h : ∀ c ∈ t, rustWs c = false) :
    splitWhitespace (t ++ ' ' :: r) = t :: splitWhitespace r := by
  unfold splitWhitespace
  rw [splitWsAux_consume t (' ' :: r) [] h]
  have hsp : rustWs ' ' = true := by decide
  simp only [splitWsAux, hsp, if_true, List.append_nil]
  have : t.reverse ≠ [] := by simp [hne]
  simp [this]

theorem findSplit_none (sep : Char) (l : List Char)
    (h : ∀ c ∈ l, c ≠ sep) : findSplit sep l = none := by
  induction l with
  | nil => rfl
  | cons c t ih =>
    simp only [findSplit, h c (by simp), if_false]
    rw [ih (fun d hd => h d (by simp [hd]))]
    rfl

theorem findSplit_append (sep : Char) (a b : List Char)
    (h : ∀ c ∈ a, c ≠ sep) : findSplit sep (a ++ sep :: b) = some (a, b) := by
  induction a with
  | nil => simp [findSplit]
  | cons c t ih =>
    simp only [List.cons_append, findSplit, h c (by simp), if_false, List.append_eq]
    rw [ih (fun d hd => h d (by simp [hd]))]
    rfl

theorem splitOnChar_append_sep (sep : Char) (a r : List Char)
    (h : ∀ c ∈ a, c ≠ sep) :
    splitOnChar sep (a ++ sep :: r) = a :: splitOnChar sep r := by
  induction a with
  | nil => simp [splitOnChar]
  | cons c t ih =>
    simp only [List.cons_append, splitOnChar, h c (by simp), if_false, List.append_eq]
    rw [ih (fun d hd => h d (by simp [hd]))]

theorem isIdChar_facts (c : Char) (h : isIdChar c = true) :
    c ≠ '.' ∧ c ≠ '+' ∧ rustWs c = false ∧ c ≠ '#' ∧ c ≠ '\n' := by
  simp only [isIdChar, isDigitChar, Bool.or_eq_true, Bool.and_eq_true,
    decide_eq_true_eq] at h
  have hb : 45 ≤ c.toNat ∧ c.toNat ≤ 122 ∧ c.toNat ≠ 46 ∧ c.toNat ≠ 43 ∧ c.toNat ≠ 35 ∧
      c.toNat ≠ 10 := by
    rcases h with ((h | h) | h) | h
    · omega
    · omega
    · omega
    · rw [h]
      decide
  refine ⟨?_, ?_, ?_, ?_, ?_⟩
  · intro hc; rw [hc] at hb; revert hb; decide
  · intro hc; rw [hc] at hb; revert hb; decide
  · exact rustWs_false_of c (by omega) (by omega)
  · intro hc; rw [hc] at hb; revert hb; decide
  · intro hc; rw [hc] at hb; revert hb; decide

theorem isDigitChar_id (c : Char) (h : isDigitChar c = true) : isIdChar c = true := by
  simp [isIdChar, h]

theorem svIdRepr_chars (i : SvId) (h : svIdValid i = true) :
    ∀ c ∈ svIdRepr i, isIdChar c = true := by
  cases i with
  | num n =>
    intro c hc
    exact isDigitChar_id c ((natRepr_spec n).2.1 c hc)
  | alpha s =>
    intro c hc
    simp only [svIdValid, Bool.and_eq_true] at h
    exact List.all_eq_true.mp h.1.2 c hc

theorem parseSvId_roundtrip (i : SvId) (h : svIdValid i = true) :
    parseSvId (svIdRepr i) = some i := by
  cases i with
  | num n =>
    simp only [svIdValid, decide_eq_true_eq] at h
    obtain ⟨h1, h2, _, _⟩ := natRepr_spec n
    simp only [svIdRepr, parseSvId, h1, if_false]
    rw [if_neg (by simp [List.all_eq_true.mpr (fun c hc => isDigitChar_id c (h2 c hc))])]
    rw [if_pos (by simp [List.all_eq_true.mpr h2])]
    rw [parseNumStrict_natRepr n h]
  | alpha s =>
    simp only [svIdValid, Bool.and_eq_true, Bool.not_eq_true'] at h
    obtain ⟨⟨h1, h2⟩, h3⟩ := h
    have hne : s ≠ [] := by
      intro hs
      rw [hs] at h1
      simp at h1
    simp only [svIdRepr, parseSvId]
    rw [if_neg hne, if_neg (by simp [h2]), if_neg (by simp [h3])]

theorem char_ne_of_toNat (c d : Char) (h : c.toNat ≠ d.toNat) : c ≠ d :=
  fun hc => h (by rw [hc])

theorem digit_facts (c : Char) (h : isDigitChar c = true) :
    c ≠ '.' ∧ c ≠ '+' ∧ c ≠ '-' ∧ c ≠ '%' ∧ c ≠ '#' ∧ c ≠ '/' ∧ c ≠ '\\' ∧ c ≠ '?' ∧
    rustWs c = false := by
  simp only [isDigitChar, Bool.and_eq_true, decide_eq_true_eq] at h
  refine ⟨?_, ?_, ?_, ?_, ?_, ?_, ?_, ?_, rustWs_false_of c (by omega) (by omega)⟩
  all_goals intro hc
  all_goals rw [hc] at h
  all_goals revert h
  all_goals decide

theorem natRepr_no_dot (n : Nat) : ∀ c ∈ natRepr n, c ≠ '.' :=
  fun c hc => (digit_facts c ((natRepr_spec n).2.1 c hc)).1

theorem core_split (M m p : Nat) :
    splitOnChar '.' (natRepr M ++ '.' :: (natRepr m ++ '.' :: natRepr p)) =
      [natRepr M, natRepr m, natRepr p] := by
  rw [splitOnChar_append_sep '.' _ _ (natRepr_no_dot M)]
  rw [splitOnChar_append_sep '.' _ _ (natRepr_no_dot m)]
  rw [splitOnChar_no_sep '.' _ (natRepr_no_dot p)]

theorem mem_sepJoin (sep : Char) (xs : List (List Char)) (c : Char) (h : c ∈ sepJoin sep xs) :
    c = sep ∨ ∃ x ∈ xs, c ∈ x := by
  induction xs with
  | nil => simp [sepJoin] at h
  | cons x rest ih =>
    cases rest with
    | nil =>
      right
      exact ⟨x, by simp, by simpa [sepJoin] using h⟩
    | cons y rest2 =>
      simp only [sepJoin, List.mem_append, List.mem_cons] at h
      rcases h with h | h | h
      · right; exact ⟨x, by simp, h⟩
      · left; exact h
      · rcases ih h with h2 | ⟨z, hz, hcz⟩
        · left; exact h2
        · right; exact ⟨z, by simp [hz], hcz⟩

theorem sepJoin_split (ids : List SvId) (hne : ids ≠ []) (hv : ∀ i ∈ ids, svIdValid i = true) :
    splitOnChar '.' (sepJoin '.' (ids.map svIdRepr)) = ids.map svIdRepr := by
  induction ids with
  | nil => exact absurd rfl hne
  | cons i rest ih =>
    cases rest with
    | nil =>
      simp only [List.map_cons, List.map_nil, sepJoin]
      exact splitOnChar_no_sep '.' _
        (fun c hc => (isIdChar_facts c (svIdRepr_chars i (hv i (by simp)) c hc)).1)
    | cons i2 rest2 =>
      simp only [List.map_cons, sepJoin]
      rw [splitOnChar_append_sep '.' _ _
        (fun c hc => (isIdChar_facts c (svIdRepr_chars i (hv i (by simp)) c hc)).1)]
      have := ih (by simp) (fun j hj => hv j (by simp [hj]))
      simp only [List.map_cons] at this
      rw [this]

theorem mapM_parseSvId (ids : List SvId) (hv : ∀ i ∈ ids, svIdValid i = true) :
    (ids.map svIdRepr).mapM parseSvId = some ids := by
  induction ids with
  | nil => rfl
  | cons i rest ih =>
    rw [List.map_cons, List.mapM_cons]
    rw [parseSvId_roundtrip i (hv i (by simp))]
    rw [ih (fun j hj => hv j (by simp [hj]))]
    rfl

theorem parseSvIds_roundtrip (ids : List SvId) (hne : ids ≠ [])
    (hv : ∀ i ∈ ids, svIdValid i = true) :
    parseSvIds (sepJoin '.' (ids.map svIdRepr)) = some ids := by
  unfold parseSvIds
  rw [sepJoin_split ids hne hv, mapM_parseSvId ids hv]

theorem sepJoin_ids_no_char (ids : List SvId) (hv : ∀ i ∈ ids, svIdValid i = true)
    (d : Char) (hd : d ≠ '.') (hid : ∀ c : Char, isIdChar c = true → c ≠ d) :
    ∀ c ∈ sepJoin '.' (ids.map svIdRepr), c ≠ d := by
  intro c hc
  rcases mem_sepJoin '.' _ c hc with h | ⟨x, hx, hcx⟩
  · rw [h]
    intro he
    exact hd he.symm
  · rcases List.mem_map.mp hx with ⟨i, hi, hxi⟩
    rw [← hxi] at hcx
    exact hid c (svIdRepr_chars i (hv i hi) c hcx)

theorem vparse_vformat (v : SemVer) (hv : vvalid v = true) : vparse (vformat v) = some v := by
  obtain ⟨M, m, p, pre, build⟩ := v
  simp only [vvalid, Bool.and_eq_true, decide_eq_true_eq] at hv
  obtain ⟨⟨⟨⟨hM, hm⟩, hp⟩, hpre⟩, hbuild⟩ := hv
  have hpreV : ∀ i ∈ pre, svIdValid i = true := List.all_eq_true.mp hpre
  have hbuildV : ∀ i ∈ build, svIdValid i = true := List.all_eq_true.mp hbuild
  have hcore : ∀ c ∈ natRepr M ++ '.' :: (natRepr m ++ '.' :: natRepr p),
      isDigitChar c = true ∨ c = '.' := by
    intro c hc
    simp only [List.mem_append, List.mem_cons] at hc
    rcases hc with h | h | h | h | h
    · exact Or.inl ((natRepr_spec M).2.1 c h)
    · exact Or.inr h
    · exact Or.inl ((natRepr_spec m).2.1 c h)
    · exact Or.inr h
    · exact Or.inl ((natRepr_spec p).2.1 c h)
  have hcoreP : ∀ c ∈ natRepr M ++ '.' :: (natRepr m ++ '.' :: natRepr p), c ≠ '+' := by
    intro c hc
    rcases hcore c hc with h | h
    · exact (digit_facts c h).2.1
    · rw [h]; decide
  have hcoreM : ∀ c ∈ natRepr M ++ '.' :: (natRepr m ++ '.' :: natRepr p), c ≠ '-' := by
    intro c hc
    rcases hcore c hc with h | h
    · exact (digit_facts c h).2.2.1
    · rw [h]; decide
  have hidP : ∀ c : Char, isIdChar c = true → c ≠ '+' :=
    fun c h => (isIdChar_facts c h).2.1
  by_cases hpe : pre = []
  · by_cases hbe : build = []
    · subst hpe hbe
      have hfmt : vformat ⟨M, m, p, [], []⟩ =
          natRepr M ++ '.' :: (natRepr m ++ '.' :: natRepr p) := by
        simp [vformat]
      rw [hfmt]
      have h1 : findSplit '+' (natRepr M ++ '.' :: (natRepr m ++ '.' :: natRepr p)) = none :=
        findSplit_none '+' _ hcoreP
      have h2 : findSplit '-' (natRepr M ++ '.' :: (natRepr m ++ '.' :: natRepr p)) = none :=
        findSplit_none '-' _ hcoreM
      simp only [vparse, h1, h2, core_split M m p, parseNumStrict_natRepr M hM,
        parseNumStrict_natRepr m hm, parseNumStrict_natRepr p hp]
    · subst hpe
      have hfmt : vformat ⟨M, m, p, [], build⟩ =
          (natRepr M ++ '.' :: (natRepr m ++ '.' :: natRepr p)) ++
          '+' :: sepJoin '.' (build.map svIdRepr) := by
        simp [vformat, hbe]
      rw [hfmt]
      have h1 : findSplit '+' ((natRepr M ++ '.' :: (natRepr m ++ '.' :: natRepr p)) ++
          '+' :: sepJoin '.' (build.map svIdRepr)) =
          some (natRepr M ++ '.' :: (natRepr m ++ '.' :: natRepr p),
            sepJoin '.' (build.map svIdRepr)) :=
        findSplit_append '+' _ _ hcoreP
      have h2 : findSplit '-' (natRepr M ++ '.' :: (natRepr m ++ '.' :: natRepr p)) = none :=
        findSplit_none '-' _ hcoreM
      simp only [vparse, h1, h2, core_split M m p, parseNumStrict_natRepr M hM,
        parseNumStrict_natRepr m hm, parseNumStrict_natRepr p hp,
        parseSvIds_roundtrip build hbe hbuildV]
  · by_cases hbe : build = []
    · subst hbe
      have hfmt : vformat ⟨M, m, p, pre, []⟩ =
          (natRepr M ++ '.' :: (natRepr m ++ '.' :: natRepr p)) ++
          '-' :: sepJoin '.' (pre.map svIdRepr) := by
        simp [vformat, hpe]
      rw [hfmt]
      have h1 : findSplit '+' ((natRepr M ++ '.' :: (natRepr m ++ '.' :: natRepr p)) ++
          '-' :: sepJoin '.' (pre.map svIdRepr)) = none := by
        apply findSplit_none
        intro c hc
        rcases List.mem_append.mp hc with h | h
        · exact hcoreP c h
        · rcases List.mem_cons.mp h with h | h
          · rw [h]; decide
          · exact sepJoin_ids_no_char pre hpreV '+' (by decide) hidP c h
      have h2 : findSplit '-' ((natRepr M ++ '.' :: (natRepr m ++ '.' :: natRepr p)) ++
          '-' :: sepJoin '.' (pre.map svIdRepr)) =
          some (natRepr M ++ '.' :: (natRepr m ++ '.' :: natRepr p),
            sepJoin '.' (pre.map svIdRepr)) :=
        findSplit_append '-' _ _ hcoreM
      simp only [vparse, h1, h2, core_split M m p, parseNumStrict_natRepr M hM,
        parseNumStrict_natRepr m hm, parseNumStrict_natRepr p hp,
        parseSvIds_roundtrip pre hpe hpreV]
    · have hfmt : vformat ⟨M, m, p, pre, build⟩ =
          ((natRepr M ++ '.' :: (natRepr m ++ '.' :: natRepr p)) ++
           '-' :: sepJoin '.' (pre.map svIdRepr)) ++
          '+' :: sepJoin '.' (build.map svIdRepr) := by
        simp [vformat, hpe, hbe]
      rw [hfmt]
      have h1 : findSplit '+' (((natRepr M ++ '.' :: (natRepr m ++ '.' :: natRepr p)) ++
          '-' :: sepJoin '.' (pre.map svIdRepr)) ++
          '+' :: sepJoin '.' (build.map svIdRepr)) =
          some ((natRepr M ++ '.' :: (natRepr m ++ '.' :: natRepr p)) ++
            '-' :: sepJoin '.' (pre.map svIdRepr),
            sepJoin '.' (build.map svIdRepr)) := by
        apply findSplit_append
        intro c hc
        rcases List.mem_append.mp hc with h | h
        · exact hcoreP c h
        · rcases List.mem_cons.mp h with h | h
          · rw [h]; decide
          · exact sepJoin_ids_no_char pre hpreV '+' (by decide) hidP c h
      have h2 : findSplit '-' ((natRepr M ++ '.' :: (natRepr m ++ '.' :: natRepr p)) ++
          '-' :: sepJoin '.' (pre.map svIdRepr)) =
          some (natRepr M ++ '.' :: (natRepr m ++ '.' :: natRepr p),
            sepJoin '.' (pre.map svIdRepr)) :=
        findSplit_append '-' _ _ hcoreM
      simp only [vparse, h1, h2, core_split M m p, parseNumStrict_natRepr M hM,
        parseNumStrict_natRepr m hm, parseNumStrict_natRepr p hp,
        parseSvIds_roundtrip pre hpe hpreV, parseSvIds_roundtrip build hbe hbuildV]

theorem pdAux_irrel : ∀ f1 f2 (l : List Nat), l.length ≤ f1 → l.length ≤ f2 →
    pdAux f1 l = pdAux f2 l := by
  intro f1
  induction f1 with
  | zero =>
    intro f2 l h1 h2
    have hl : l = [] := by
      cases l with
      | nil => rfl
      | cons b t => simp at h1
    subst hl
    cases f2 <;> rfl
  | succ fu ih =>
    intro f2 l h1 h2
    cases l with
    | nil => cases f2 <;> rfl
    | cons b rest =>
      cases f2 with
      | zero => simp at h2
      | succ fv =>
        simp only [List.length_cons, Nat.add_le_add_iff_right] at h1 h2
        by_cases hb : b = 0x25
        · subst hb
          rcases rest with _ | ⟨a, _ | ⟨c2, rest2⟩⟩
          · show 0x25 :: pdAux fu [] = 0x25 :: pdAux fv []
            rw [ih fv [] (by simp) (by simp)]
          · show 0x25 :: pdAux fu [a] = 0x25 :: pdAux fv [a]
            rw [ih fv [a] h1 h2]
          · show (match hexValByte a, hexValByte c2 with
              | some x, some y => (16 * x + y) :: pdAux fu rest2
              | _, _ => 0x25 :: pdAux fu (a :: c2 :: rest2)) =
              (match hexValByte a, hexValByte c2 with
              | some x, some y => (16 * x + y) :: pdAux fv rest2
              | _, _ => 0x25 :: pdAux fv (a :: c2 :: rest2))
            have hlen : rest2.length + 2 ≤ fu ∧ rest2.length + 2 ≤ fv := by
              simp only [List.length_cons] at h1 h2
              omega
            cases hha : hexValByte a
            all_goals cases hhc : hexValByte c2
            · rw [ih fv (a :: c2 :: rest2) h1 h2]
            · rw [ih fv (a :: c2 :: rest2) h1 h2]
            · rw [ih fv (a :: c2 :: rest2) h1 h2]
            · simp only []
              rw [ih fv rest2 (by omega) (by omega)]
        · have e1 : pdAux (fu + 1) (b :: rest) = b :: pdAux fu rest := by
            simp only [pdAux, hb, if_false]
          have e2 : pdAux (fv + 1) (b :: rest) = b :: pdAux fv rest := by
            simp only [pdAux, hb, if_false]
          rw [e1, e2, ih fv rest h1 h2]

theorem percentDecode_other (b : Nat) (l : List Nat) (hb : b ≠ 0x25) :
    percentDecode (b :: l) = b :: percentDecode l := by
  unfold percentDecode
  simp only [List.length_cons, pdAux, hb, if_false]

theorem percentDecode_hex (a c : Nat) (x y : Nat) (l : List Nat)
    (ha : hexValByte a = some x) (hc : hexValByte c = some y) :
    percentDecode (0x25 :: a :: c :: l) = (16 * x + y) :: percentDecode l := by
  unfold percentDecode
  simp only [List.length_cons, pdAux, ha, hc, if_true]
  congr 1
  exact pdAux_irrel (l.length + 2) l.length l (by omega) (le_refl _)

theorem utf8EncodeChar_ascii (c : Char) (h : c.toNat < 128) : utf8EncodeChar c = [c.toNat] := by
  unfold utf8EncodeChar
  simp [h]

theorem utf8Encode_ascii (f : List Char) (h : ∀ c ∈ f, c.toNat < 128) :
    utf8Encode f = f.map Char.toNat := by
  induction f with
  | nil => rfl
  | cons c rest ih =>
    simp only [utf8Encode, List.map_cons, List.flatten_cons] at ih ⊢
    rw [utf8EncodeChar_ascii c (h c (by simp)), ih (fun d hd => h d (by simp [hd]))]
    rfl

theorem utf8Encode_append (a b : List Char) :
    utf8Encode (a ++ b) = utf8Encode a ++ utf8Encode b := by
  simp [utf8Encode, List.map_append]

theorem utf8Step_shrink (b : Nat) (rest : List Nat) (c : Char) (rest2 : List Nat)
    (h : utf8Step b rest = some (c, rest2)) : rest2.length ≤ rest.length := by
  unfold utf8Step at h
  by_cases h1 : b < 0x80
  · rw [if_pos h1] at h
    simp only [Option.some.injEq, Prod.mk.injEq] at h
    rw [← h.2]
  · rw [if_neg h1] at h
    by_cases h2 : 0xC2 ≤ b ∧ b ≤ 0xDF
    · rw [if_pos h2] at h
      rcases rest with _ | ⟨b2, r2⟩
      · exact absurd h (by simp)
      · cases hcb : isCont b2 with
        | false => simp [hcb] at h
        | true =>
          simp only [hcb, if_true, Option.some.injEq, Prod.mk.injEq] at h
          rw [← h.2]
          simp
    · rw [if_neg h2] at h
      by_cases h3 : 0xE0 ≤ b ∧ b ≤ 0xEF
      · rw [if_pos h3] at h
        rcases rest with _ | ⟨b2, _ | ⟨b3, r3⟩⟩
        · exact absurd h (by simp)
        · exact absurd h (by simp)
        · cases hcb : cont2ok b b2 && isCont b3 with
          | false => simp [hcb] at h
          | true =>
            simp only [hcb, if_true, Option.some.injEq, Prod.mk.injEq] at h
            rw [← h.2]
            simp
            omega
      · rw [if_neg h3] at h
        by_cases h4 : 0xF0 ≤ b ∧ b ≤ 0xF4
        · rw [if_pos h4] at h
          rcases rest with _ | ⟨b2, _ | ⟨b3, _ | ⟨b4, r4⟩⟩⟩
          · exact absurd h (by simp)
          · exact absurd h (by simp)
          · exact absurd h (by simp)
          · cases hcb : cont3ok b b2 && isCont b3 && isCont b4 with
            | false => simp [hcb] at h
            | true =>
              simp only [hcb, if_true, Option.some.injEq, Prod.mk.injEq] at h
              rw [← h.2]
              simp
              omega
        · rw [if_neg h4] at h
          exact absurd h (by simp)

theorem udAux_irrel : ∀ f1 f2 (l : List Nat), l.length ≤ f1 → l.length ≤ f2 →
    udAux f1 l = udAux f2 l := by
  intro f1
  induction f1 with
  | zero =>
    intro f2 l h1 h2
    have hl : l = [] := by
      cases l with
      | nil => rfl
      | cons b t => simp at h1
    subst hl
    cases f2 <;> rfl
  | succ fu ih =>
    intro f2 l h1 h2
    cases l with
    | nil => cases f2 <;> rfl
    | cons b rest =>
      cases f2 with
      | zero => simp at h2
      | succ fv =>
        simp only [List.length_cons, Nat.add_le_add_iff_right] at h1 h2
        simp only [udAux]
        cases hs : utf8Step b rest with
        | none => rfl
        | some p =>
          obtain ⟨c, rest2⟩ := p
          have hsh := utf8Step_shrink b rest c rest2 hs
          simp only [Option.some_bind]
          rw [ih fv rest2 (by omega) (by omega)]

theorem utf8Decode_cons (b : Nat) (rest : List Nat) :
    utf8Decode (b :: rest) =
      (utf8Step b rest).bind (fun p => (utf8Decode p.2).map (fun s => p.1 :: s)) := by
  unfold utf8Decode
  simp only [List.length_cons, udAux]
  cases hs : utf8Step b rest with
  | none => rfl
  | some p =>
    obtain ⟨c, rest2⟩ := p
    have hsh := utf8Step_shrink b rest c rest2 hs
    simp only [Option.some_bind]
    rw [udAux_irrel rest.length rest2.length rest2 (by omega) (le_refl _)]

theorem utf8Decode_ascii (bs : List Nat) (h : ∀ b ∈ bs, b < 128) :
    utf8Decode bs = some (bs.map Char.ofNat) := by
  induction bs with
  | nil => rfl
  | cons b rest ih =>
    have hb : b < 128 := h b (by simp)
    have hstep : utf8Step b rest = some (Char.ofNat b, rest) := by
      unfold utf8Step
      rw [if_pos hb]
    rw [utf8Decode_cons, hstep]
    simp only [Option.some_bind]
    rw [ih (fun d hd => h d (by simp [hd]))]
    rfl

theorem encodeName_ascii (f : List Char) (h : ∀ c ∈ f, c.toNat < 128) :
    encodeName f = (f.map escPiece).flatten := by
  unfold encodeName
  rw [utf8Encode_ascii f h, List.map_map]
  rfl

theorem hexUpper_toNat_lt (d : Nat) (h : d < 16) : (hexDigitUpper d).toNat < 128 := by
  interval_cases d <;> decide

theorem encodeName_chars (f : List Char) (hascii : ∀ c ∈ f, c.toNat < 128) :
    ∀ x ∈ encodeName f,
      x = '%' ∨ isHexUpperChar x = true ∨ (x ∈ f ∧ inDefaultSet x.toNat = false) := by
  rw [encodeName_ascii f hascii]
  intro x hx
  rcases List.mem_flatten.mp hx with ⟨piece, hp, hxp⟩
  rcases List.mem_map.mp hp with ⟨c, hcf, hpc⟩
  rw [← hpc] at hxp
  unfold escPiece at hxp
  by_cases hset : inDefaultSet c.toNat = true
  · rw [if_pos hset] at hxp
    rcases List.mem_cons.mp hxp with h | h
    · left; exact h
    · right; left
      have hlt : c.toNat < 256 := by have := hascii c hcf; omega
      unfold byteHexUpper at h
      rcases List.mem_cons.mp h with h | h
      · rw [h]; exact hexUpper_class _ (by omega)
      · simp at h
        rw [h]
        exact hexUpper_class _ (Nat.mod_lt _ (by omega))
  · rw [if_neg hset] at hxp
    simp only [Char.ofNat_toNat, List.mem_singleton] at hxp
    right; right
    subst hxp
    exact ⟨hcf, by simpa using hset⟩

theorem hexUpper_facts (c : Char) (h : isHexUpperChar c = true) :
    c ≠ '#' ∧ c ≠ '?' ∧ c ≠ '\\' ∧ c ≠ '/' ∧ rustWs c = false ∧ c ≠ '.' ∧ c ≠ '%' := by
  simp only [isHexUpperChar, isDigitChar, Bool.or_eq_true, Bool.and_eq_true,
    decide_eq_true_eq] at h
  have hws : rustWs c = false := by
    rcases h with h | h
    · exact rustWs_false_of c (by omega) (by omega)
    · exact rustWs_false_of c (by omega) (by omega)
  refine ⟨?_, ?_, ?_, ?_, hws, ?_, ?_⟩
  all_goals intro hc
  all_goals rw [hc] at h
  all_goals revert h
  all_goals decide

theorem hexLower_facts (c : Char) (h : isHexLowerChar c = true) :
    c ≠ '#' ∧ rustWs c = false := by
  simp only [isHexLowerChar, isDigitChar, Bool.or_eq_true, Bool.and_eq_true,
    decide_eq_true_eq] at h
  have hws : rustWs c = false := by
    rcases h with h | h
    · exact rustWs_false_of c (by omega) (by omega)
    · exact rustWs_false_of c (by omega) (by omega)
  refine ⟨?_, hws⟩
  intro hc
  rw [hc] at h
  revert h
  decide

theorem pd_escPieces (f : List Char)
    (hg : ∀ c ∈ f, 0x20 ≤ c.toNat ∧ c.toNat ≤ 0x7E ∧ c ≠ '%') :
    percentDecode (utf8Encode ((f.map escPiece).flatten)) = f.map Char.toNat := by
  induction f with
  | nil => rfl
  | cons c rest ih =>
    obtain ⟨h1, h2, h3⟩ := hg c (by simp)
    have hrest := ih (fun d hd => hg d (by simp [hd]))
    simp only [List.map_cons, List.flatten_cons]
    by_cases hset : inDefaultSet c.toNat = true
    · have hpiece : escPiece c = '%' :: byteHexUpper c.toNat := by simp [escPiece, hset]
      rw [hpiece, utf8Encode_append]
      have henc : utf8Encode ('%' :: byteHexUpper c.toNat) =
          0x25 :: (hexDigitUpper (c.toNat / 16)).toNat ::
            [(hexDigitUpper (c.toNat % 16)).toNat] := by
        rw [utf8Encode_ascii]
        · rfl
        · intro d hd
          rcases List.mem_cons.mp hd with h | h
          · rw [h]; decide
          · unfold byteHexUpper at h
            rcases List.mem_cons.mp h with h | h
            · rw [h]; exact hexUpper_toNat_lt _ (by omega)
            · simp at h
              rw [h]
              exact hexUpper_toNat_lt _ (Nat.mod_lt _ (by omega))
      rw [henc]
      simp only [List.cons_append, List.nil_append]
      have hlt : c.toNat < 256 := by omega
      rw [percentDecode_hex _ _ _ _ _ (hexValByte_upper (c.toNat / 16) (by omega))
        (hexValByte_upper (c.toNat % 16) (Nat.mod_lt _ (by omega)))]
      rw [hrest]
      congr 1
      omega
    · have hpiece : escPiece c = [c] := by
        simp [escPiece, hset, Char.ofNat_toNat]
      rw [hpiece, List.singleton_append]
      have henc : utf8Encode (c :: (rest.map escPiece).flatten) =
          c.toNat :: utf8Encode ((rest.map escPiece).flatten) := by
        simp [utf8Encode, utf8EncodeChar_ascii c (by omega)]
      rw [henc]
      have hc37 : c.toNat ≠ 0x25 := by
        intro he
        exact h3 (char_toNat_inj c '%' (by rw [he]; rfl))
      rw [percentDecode_other _ _ hc37, hrest]

theorem toNat_ofNat_small (m : Nat) (h : m < 0xD800) : (Char.ofNat m).toNat = m := by
  unfold Char.ofNat
  rw [dif_pos (Or.inl h)]
  simp only [Char.ofNatAux, Char.toNat]
  rfl

theorem asciiLower_inv (c d : Char) (h : asciiLower c = d) :
    c = d ∨ (65 ≤ c.toNat ∧ c.toNat ≤ 90 ∧ c.toNat + 32 = d.toNat) := by
  unfold asciiLower at h
  by_cases hb : 65 ≤ c.toNat ∧ c.toNat ≤ 90
  · right
    refine ⟨hb.1, hb.2, ?_⟩
    rw [← h, if_pos hb, toNat_ofNat_small _ (by omega)]
  · left
    rw [if_neg hb] at h
    exact h

theorem asciiLower_pct (c : Char) (h : asciiLower c = '%') : c = '%' := by
  rcases asciiLower_inv c '%' h with h2 | ⟨h1, h2, h3⟩
  · exact h2
  · exfalso
    have h4 : ('%' : Char).toNat = 37 := by decide
    omega

theorem asciiLower_two (c : Char) (h : asciiLower c = '2') : c = '2' := by
  rcases asciiLower_inv c '2' h with h2 | ⟨h1, h2, h3⟩
  · exact h2
  · exfalso
    have h4 : ('2' : Char).toNat = 50 := by decide
    omega

theorem asciiLower_dot (c : Char) (h : asciiLower c = '.') : c = '.' := by
  rcases asciiLower_inv c '.' h with h2 | ⟨h1, h2, h3⟩
  · exact h2
  · exfalso
    have h4 : ('.' : Char).toNat = 46 := by decide
    omega

theorem asciiLower_e (c : Char) (h : asciiLower c = 'e') : c = 'e' ∨ c = 'E' := by
  rcases asciiLower_inv c 'e' h with h2 | ⟨h1, h2, h3⟩
  · exact Or.inl h2
  · right
    refine char_toNat_inj c 'E' ?_
    have h4 : ('e' : Char).toNat = 101 := by decide
    have h5 : ('E' : Char).toNat = 69 := by decide
    omega

theorem encodeName_not_dotty (f : List Char)
    (hg : ∀ c ∈ f, 0x20 ≤ c.toNat ∧ c.toNat ≤ 0x7E ∧ c ≠ '%')
    (h1 : f ≠ ['.']) (h2 : f ≠ ['.', '.']) :
    isDotSeg (encodeName f) = false ∧ isDotDotSeg (encodeName f) = false := by
  have hascii : ∀ c ∈ f, c.toNat < 128 := fun c hc => by
    have := (hg c hc).2.1
    omega
  have hdec : percentDecode (utf8Encode (encodeName f)) = f.map Char.toNat := by
    rw [encodeName_ascii f hascii]
    exact pd_escPieces f hg
  have hinj : Function.Injective Char.toNat := fun a b hab => char_toNat_inj a b hab
  have hC1 : ∀ s : List Char, encodeName f = s → percentDecode (utf8Encode s) = [46] → False := by
    intro s hs hpd
    have h46 : f.map Char.toNat = [46] := by rw [← hdec, hs, hpd]
    refine h1 (List.map_injective_iff.mpr hinj ?_)
    rw [h46]
    rfl
  have hC2 : ∀ s : List Char, encodeName f = s →
      percentDecode (utf8Encode s) = [46, 46] → False := by
    intro s hs hpd
    have h46 : f.map Char.toNat = [46, 46] := by rw [← hdec, hs, hpd]
    refine h2 (List.map_injective_iff.mpr hinj ?_)
    rw [h46]
    rfl
  constructor
  · cases hdot : isDotSeg (encodeName f) with
    | false => rfl
    | true =>
      exfalso
      simp only [isDotSeg, Bool.or_eq_true, decide_eq_true_eq] at hdot
      rcases hdot with hs | hs
      · exact hC1 _ hs (by rfl)
      · rcases hef : encodeName f with _ | ⟨a1, _ | ⟨a2, _ | ⟨a3, _ | ⟨a4, t4⟩⟩⟩⟩
        all_goals rw [hef] at hs
        · simp at hs
        · simp at hs
        · simp at hs
        · simp only [List.map_cons, List.map_nil] at hs
          injection hs with hs1 hs
          injection hs with hs2 hs
          injection hs with hs3 hs
          have e1 := asciiLower_pct a1 hs1
          have e2 := asciiLower_two a2 hs2
          subst e1
          subst e2
          rcases asciiLower_e a3 hs3 with e3 | e3
          · subst e3
            exact hC1 _ hef (by rfl)
          · subst e3
            exact hC1 _ hef (by rfl)
        · simp at hs
  · cases hdot : isDotDotSeg (encodeName f) with
    | false => rfl
    | true =>
      exfalso
      simp only [isDotDotSeg, Bool.or_eq_true, decide_eq_true_eq] at hdot
      rcases hdot with ((hs | hs) | hs) | hs
      · exact hC2 _ hs (by rfl)
      · rcases hef : encodeName f with _ | ⟨a1, _ | ⟨a2, _ | ⟨a3, _ | ⟨a4, _ | ⟨a5, t5⟩⟩⟩⟩⟩
        all_goals rw [hef] at hs
        · simp at hs
        · simp at hs
        · simp at hs
        · simp at hs
        · simp only [List.map_cons, List.map_nil] at hs
          injection hs with hs1 hs
          injection hs with hs2 hs
          injection hs with hs3 hs
          injection hs with hs4 hs
          have e1 := asciiLower_dot a1 hs1
          have e2 := asciiLower_pct a2 hs2
          have e3 := asciiLower_two a3 hs3
          subst e1
          subst e2
          subst e3
          rcases asciiLower_e a4 hs4 with e4 | e4
          · subst e4
            exact hC2 _ hef (by rfl)
          · subst e4
            exact hC2 _ hef (by rfl)
        · simp at hs
      · rcases hef : encodeName f with _ | ⟨a1, _ | ⟨a2, _ | ⟨a3, _ | ⟨a4, _ | ⟨a5, t5⟩⟩⟩⟩⟩
        all_goals rw [hef] at hs
        · simp at hs
        · simp at hs
        · simp at hs
        · simp at hs
        · simp only [List.map_cons, List.map_nil] at hs
          injection hs with hs1 hs
          injection hs with hs2 hs
          injection hs with hs3 hs
          injection hs with hs4 hs
          have e1 := asciiLower_pct a1 hs1
          have e2 := asciiLower_two a2 hs2
          have e4 := asciiLower_dot a4 hs4
          subst e1
          subst e2
          subst e4
          rcases asciiLower_e a3 hs3 with e3 | e3
          · subst e3
            exact hC2 _ hef (by rfl)
          · subst e3
            exact hC2 _ hef (by rfl)
        · simp at hs
      · rcases hef : encodeName f with
          _ | ⟨a1, _ | ⟨a2, _ | ⟨a3, _ | ⟨a4, _ | ⟨a5, _ | ⟨a6, _ | ⟨a7, t7⟩⟩⟩⟩⟩⟩⟩
        all_goals rw [hef] at hs
        · simp at hs
        · simp at hs
        · simp at hs
        · simp at hs
        · simp at hs
        · simp at hs
        · simp only [List.map_cons, List.map_nil] at hs
          injection hs with hs1 hs
          injection hs with hs2 hs
          injection hs with hs3 hs
          injection hs with hs4 hs
          injection hs with hs5 hs
          injection hs with hs6 hs
          have e1 := asciiLower_pct a1 hs1
          have e2 := asciiLower_two a2 hs2
          have e4 := asciiLower_pct a4 hs4
          have e5 := asciiLower_two a5 hs5
          subst e1
          subst e2
          subst e4
          subst e5
          rcases asciiLower_e a3 hs3 with e3 | e3
          all_goals subst e3
          all_goals rcases asciiLower_e a6 hs6 with e6 | e6
          all_goals subst e6
          · exact hC2 _ hef (by rfl)
          · exact hC2 _ hef (by rfl)
          · exact hC2 _ hef (by rfl)
          · exact hC2 _ hef (by rfl)
        · simp at hs

theorem hasPfx_nil (p : List Char) : hasPfx [] p = true := by
  simp [hasPfx]

theorem hasPfx_cons (q : Char) (p : List Char) (c : Char) (l : List Char) :
    hasPfx (q :: p) (c :: l) = true ↔ (c = q ∧ hasPfx p l = true) := by
  simp [hasPfx, List.take_succ_cons]

theorem encodeName_keeps_pfx : ∀ (p f : List Char),
    (∀ c ∈ p, inDefaultSet c.toNat = false ∧ c ≠ '%') → (∀ c ∈ f, c.toNat < 128) →
    hasPfx p (encodeName f) = true → hasPfx p f = true := by
  intro p
  induction p with
  | nil => intro f _ _ _; exact hasPfx_nil f
  | cons q p2 ih =>
    intro f hp hascii hpfx
    cases f with
    | nil => exact absurd hpfx (by simp [hasPfx, encodeName, utf8Encode])
    | cons c f2 =>
      have hsub : ∀ d ∈ f2, d.toNat < 128 := fun d hd => hascii d (by simp [hd])
      have hstep : encodeName (c :: f2) = escPiece c ++ encodeName f2 := by
        rw [encodeName_ascii _ hascii, encodeName_ascii _ hsub]
        simp [List.map_cons]
      rw [hstep] at hpfx
      by_cases hset : inDefaultSet c.toNat = true
      · have hpiece : escPiece c = '%' :: byteHexUpper c.toNat := by simp [escPiece, hset]
        rw [hpiece, List.cons_append] at hpfx
        rw [hasPfx_cons] at hpfx
        exact absurd hpfx.1.symm (hp q (by simp)).2
      · have hpiece : escPiece c = [c] := by
          simp [escPiece, hset, Char.ofNat_toNat]
        rw [hpiece, List.singleton_append] at hpfx
        rw [hasPfx_cons] at hpfx
        rw [hasPfx_cons]
        exact ⟨hpfx.1, ih f2 (fun d hd => hp d (by simp [hd])) hsub hpfx.2⟩

theorem encodeName_good_chars (f : List Char) (hg : goodFilename f) :
    ∀ x ∈ encodeName f,
      x ≠ '#' ∧ x ≠ '?' ∧ x ≠ '\\' ∧ x ≠ '/' ∧ rustWs x = false := by
  obtain ⟨hne, hd1, hd2, hps, hchars⟩ := hg
  have hascii : ∀ c ∈ f, c.toNat < 128 := fun c hc => by
    have := (hchars c hc).2.1
    omega
  intro x hx
  rcases encodeName_chars f hascii x hx with h | h | ⟨hxf, hxset⟩
  · subst h
    refine ⟨by decide, by decide, by decide, by decide, by decide⟩
  · obtain ⟨ha, hb, hc2, hd3, he, _, _⟩ := hexUpper_facts x h
    exact ⟨ha, hb, hc2, hd3, he⟩
  · obtain ⟨hlo, hhi, hpc, hsl, hbs⟩ := hchars x hxf
    have hge : 33 ≤ x.toNat := by
      by_contra hlt
      have hx32 : x.toNat = 32 := by omega
      have : inDefaultSet x.toNat = true := by
        rw [hx32]
        decide
      rw [this] at hxset
      exact absurd hxset (by simp)
    have hsetf : x.toNat ≠ 35 ∧ x.toNat ≠ 63 := by
      constructor
      all_goals intro hv
      all_goals rw [hv] at hxset
      all_goals exact absurd hxset (by decide)
    refine ⟨?_, ?_, hbs.1, hsl, rustWs_false_of x (by omega) (by omega)⟩
    · intro hxc
      rw [hxc] at hsetf
      exact hsetf.1 (by decide)
    · intro hxc
      rw [hxc] at hsetf
      exact hsetf.2 (by decide)

theorem encodeName_ne_nil (f : List Char) (hne : f ≠ [])
    (hascii : ∀ c ∈ f, c.toNat < 128) : encodeName f ≠ [] := by
  rw [encodeName_ascii f hascii]
  cases f with
  | nil => exact absurd rfl hne
  | cons c f2 =>
    simp only [List.map_cons, List.flatten_cons]
    unfold escPiece
    by_cases hset : inDefaultSet c.toNat = true
    · simp [hset]
    · simp [hset]

theorem normDriveSeg_of_no_bar (s : List Char) (h : ∀ c ∈ s, c ≠ '|') :
    normDriveSeg s = s := by
  rcases s with _ | ⟨a, _ | ⟨b, _ | ⟨c, r⟩⟩⟩
  · rfl
  · rfl
  · show (if b = '|' then [a, ':'] else [a, b]) = [a, b]
    rw [if_neg (h b (by simp))]
  · rfl

theorem encodeName_no_bar (f : List Char) (hascii : ∀ c ∈ f, c.toNat < 128)
    (hbar : ∀ c ∈ f, c ≠ '|') : ∀ x ∈ encodeName f, x ≠ '|' := by
  intro x hx
  rcases encodeName_chars f hascii x hx with h | h | ⟨hxf, _⟩
  · rw [h]
    decide
  · simp only [isHexUpperChar, isDigitChar, Bool.or_eq_true, Bool.and_eq_true,
      decide_eq_true_eq] at h
    intro hc
    have hv : x.toNat = 124 := by
      rw [hc]
      decide
    rcases h with ⟨h1, h2⟩ | ⟨h1, h2⟩ <;> omega
  · exact hbar x hxf

theorem parse_name_encodeName (f : List Char) (hg : goodFilename f) :
    ReleaseEntry.parse_name (encodeName f) = .ok f := by
  obtain ⟨hne, hd1, hd2, hps, hchars⟩ := hg
  have hascii : ∀ c ∈ f, c.toNat < 128 := fun c hc => by
    have := (hchars c hc).2.1
    omega
  have hgood := encodeName_good_chars f ⟨hne, hd1, hd2, hps, hchars⟩
  have hpfx : hasPfx httpsPfx (encodeName f) = false := by
    cases hpv : hasPfx httpsPfx (encodeName f) with
    | false => rfl
    | true =>
      have := encodeName_keeps_pfx httpsPfx f (by decide) hascii hpv
      rw [this] at hps
      exact absurd hps (by simp)
  have hnodot := encodeName_not_dotty f
    (fun c hc => ⟨(hchars c hc).1, (hchars c hc).2.1, (hchars c hc).2.2.1⟩) hd1 hd2
  have hsegs : splitOnChar '/' (encodeName f) = [encodeName f] :=
    splitOnChar_no_sep '/' _ (fun c hc => (hgood c hc).2.2.2.1)
  have hpath : filePathOf (encodeName f) = '/' :: encodeName f := by
    simp only [filePathOf]
    rw [takeWhile_of_all (fun c => decide (c ≠ '#')) (encodeName f)
      (fun c hc => by simp [(hgood c hc).1])]
    rw [takeWhile_of_all (fun c => decide (c ≠ '?')) (encodeName f)
      (fun c hc => by simp [(hgood c hc).2.1])]
    rw [map_of_all (fun c => if c = '\\' then '/' else c) (encodeName f)
      (fun c hc => by simp [(hgood c hc).2.2.1])]
    rw [hsegs]
    simp only [procSegs, hnodot.1, hnodot.2, Bool.false_eq_true, if_false]
    have hnorm : normDriveSeg (encodeName f) = encodeName f :=
      normDriveSeg_of_no_bar _ (encodeName_no_bar f hascii
        (fun c hc => (hchars c hc).2.2.2.2.2))
    rw [hnorm, ite_self]
    simp
  unfold ReleaseEntry.parse_name
  rw [hpfx, hpath]
  have hencBytes : utf8Encode ('/' :: encodeName f) = 47 :: utf8Encode (encodeName f) := by
    have : utf8EncodeChar '/' = [47] := by decide
    simp [utf8Encode, this]
  rw [hencBytes]
  rw [percentDecode_other 47 _ (by omega)]
  have hdec : percentDecode (utf8Encode (encodeName f)) = f.map Char.toNat := by
    rw [encodeName_ascii f hascii]
    exact pd_escPieces f (fun c hc => ⟨(hchars c hc).1, (hchars c hc).2.1, (hchars c hc).2.2.1⟩)
  rw [hdec]
  have hdecu : utf8Decode (47 :: f.map Char.toNat) = some ('/' :: f) := by
    have h47 : (47 : Nat) < 128 := by omega
    have hall : ∀ b ∈ 47 :: f.map Char.toNat, b < 128 := by
      intro b hb
      rcases List.mem_cons.mp hb with h | h
      · omega
      · rcases List.mem_map.mp h with ⟨c, hc, hbc⟩
        rw [← hbc]
        exact hascii c hc
    rw [utf8Decode_ascii _ hall]
    have hcomp : f.map (Char.ofNat ∘ Char.toNat) = f := by
      rw [show (Char.ofNat ∘ Char.toNat) = (id : Char → Char) from
        funext fun c => Char.ofNat_toNat c, List.map_id]
    congr 1
    simp only [List.map_cons, List.map_map]
    rw [hcomp]
  rw [hdecu]
  simp only [Bool.false_eq_true, if_false]
  congr 1
  cases hf : f with
  | nil => exact absurd hf hne
  | cons c f2 =>
    simp only [List.dropWhile]
    have : c ≠ '/' := by
      have := hchars c (by rw [hf]; simp)
      exact this.2.2.2.1
    simp [this]

theorem dropWhile_of_all {α : Type} (p : α → Bool) (l : List α)
    (h : ∀ x ∈ l, p x = false) : l.dropWhile p = l := by
  cases l with
  | nil => rfl
  | cons a t => simp [List.dropWhile_cons, h a (by simp)]

theorem hexLowerFlat_chars (bs : List Nat) (hb : ∀ b ∈ bs, b < 256) :
    ∀ c ∈ (bs.map byteHexLower).flatten, isHexLowerChar c = true := by
  induction bs with
  | nil => intro c hc; simp at hc
  | cons b t ih =>
    intro c hc
    have hb0 : b < 256 := hb b (by simp)
    simp only [List.map_cons, List.flatten_cons, List.mem_append] at hc
    rcases hc with h | h
    · simp only [byteHexLower, List.mem_cons, List.not_mem_nil, or_false] at h
      rcases h with h | h
      · rw [h]; exact hexLower_class _ (by omega)
      · rw [h]; exact hexLower_class _ (by omega)
    · exact ih (fun x hx => hb x (by simp [hx])) c h

theorem shaTok_ne_nil (bs : List Nat) (h : bs ≠ []) :
    (bs.map byteHexLower).flatten ≠ [] := by
  cases bs with
  | nil => exact absurd rfl h
  | cons b t => simp [byteHexLower]

theorem parse_sha256_fmt (bs : List Nat) (h32 : bs.length = 32) (hb : ∀ b ∈ bs, b < 256) :
    ReleaseEntry.parse_sha256 ((bs.map byteHexLower).flatten) = .ok bs := by
  unfold ReleaseEntry.parse_sha256
  rw [fromHex_roundtrip bs hb]
  simp [h32]

theorem intRepr_nonneg (p : Int) (h : 0 ≤ p) : intRepr p = natRepr p.toNat := by
  unfold intRepr
  rw [if_neg (by omega)]

theorem trimPct_append (t : List Char) (h : ∀ c ∈ t, c ≠ '%') :
    ReleaseEntry.trimPct (t ++ ['%']) = t := by
  unfold ReleaseEntry.trimPct
  rw [List.reverse_append]
  simp only [List.reverse_cons, List.reverse_nil, List.nil_append, List.singleton_append,
    List.dropWhile_cons, decide_True, if_true]
  rw [dropWhile_of_all _ _ (fun x hx => by
    simp [h x (List.mem_reverse.mp hx)])]
  exact List.reverse_reverse t

theorem parse_i32_natRepr (n : Nat) (h : n ≤ 2147483647) :
    parse_i32_opt (natRepr n) = some ((n : Int)) := by
  obtain ⟨c, r, hr, hc⟩ := natRepr_head_digit n
  have hplus : (natRepr n).head? ≠ some '+' := by
    rw [hr, List.head?_cons]
    intro hcc
    injection hcc with h2
    rw [h2] at hc
    exact absurd hc (by decide)
  have hminus : (natRepr n).head? ≠ some '-' := by
    rw [hr, List.head?_cons]
    intro hcc
    injection hcc with h2
    rw [h2] at hc
    exact absurd hc (by decide)
  simp only [parse_i32_opt, if_neg hplus, if_neg hminus, parseNat_natRepr,
    Option.some_bind]
  rw [if_pos h]

theorem parse_percentage_fmt (p : Int) (h0 : 0 ≤ p) (h1 : p ≤ 100) :
    ReleaseEntry.parse_percentage (intRepr p ++ ['%']) = .ok p := by
  rw [intRepr_nonneg p h0]
  have hd : ∀ c ∈ natRepr p.toNat, c ≠ '%' :=
    fun c hc => (digit_facts c ((natRepr_spec p.toNat).2.1 c hc)).2.2.2.1
  unfold ReleaseEntry.parse_percentage
  rw [trimPct_append _ hd, parse_i32_natRepr p.toNat (by omega)]
  have hpp : ((p.toNat : Nat) : Int) = p := Int.toNat_of_nonneg h0
  rw [hpp]
  show (if p > 100 ∨ p < 0 then Except.error ParseError.percentRangeError
    else Except.ok p) = Except.ok p
  rw [if_neg (by omega)]

theorem parse_delta_full_fmt (d : Bool) :
    ReleaseEntry.parse_delta_full
      (if d then ['d', 'e', 'l', 't', 'a'] else ['f', 'u', 'l', 'l']) = .ok d := by
  cases d <;> decide

theorem vformat_ne_nil (v : SemVer) : vformat v ≠ [] := by
  obtain ⟨c, r, hr, _⟩ := natRepr_head_digit v.major
  simp [vformat, hr]

theorem vformat_chars (v : SemVer) (hv : vvalid v = true) :
    ∀ c ∈ vformat v, rustWs c = false ∧ c ≠ '#' := by
  obtain ⟨M, m, p, pre, build⟩ := v
  simp only [vvalid, Bool.and_eq_true, decide_eq_true_eq] at hv
  obtain ⟨⟨⟨⟨hM, hm⟩, hp⟩, hpre⟩, hbuild⟩ := hv
  have hpreV : ∀ i ∈ pre, svIdValid i = true := List.all_eq_true.mp hpre
  have hbuildV : ∀ i ∈ build, svIdValid i = true := List.all_eq_true.mp hbuild
  have hdig : ∀ n : Nat, ∀ c ∈ natRepr n, rustWs c = false ∧ c ≠ '#' := by
    intro n c hc
    have h := (natRepr_spec n).2.1 c hc
    exact ⟨(digit_facts c h).2.2.2.2.2.2.2.2, (digit_facts c h).2.2.2.2.1⟩
  have hid : ∀ c : Char, isIdChar c = true → rustWs c = false ∧ c ≠ '#' := by
    intro c h
    exact ⟨(isIdChar_facts c h).2.2.1, (isIdChar_facts c h).2.2.2.1⟩
  have hsep : ∀ ids : List SvId, (∀ i ∈ ids, svIdValid i = true) →
      ∀ c ∈ sepJoin '.' (ids.map svIdRepr), rustWs c = false ∧ c ≠ '#' := by
    intro ids hids c hc
    rcases mem_sepJoin '.' _ c hc with h | ⟨x, hx, hcx⟩
    · rw [h]
      exact ⟨by decide, by decide⟩
    · rcases List.mem_map.mp hx with ⟨i, hi, hxi⟩
      rw [← hxi] at hcx
      exact hid c (svIdRepr_chars i (hids i hi) c hcx)
  intro c hc
  simp only [vformat, List.append_assoc, List.cons_append, List.mem_append,
    List.mem_cons] at hc
  rcases hc with h | h | h | h | h | h
  · exact hdig M c h
  · rw [h]
    exact ⟨by decide, by decide⟩
  · exact hdig m c h
  · rw [h]
    exact ⟨by decide, by decide⟩
  · exact hdig p c h
  · rcases h with h2 | h2
    · by_cases hpe : pre = []
      · rw [hpe] at h2
        simp at h2
      · rw [if_neg hpe] at h2
        rcases List.mem_cons.mp h2 with h3 | h3
        · rw [h3]
          exact ⟨by decide, by decide⟩
        · exact hsep pre hpreV c h3
    · by_cases hbe : build = []
      · rw [hbe] at h2
        simp at h2
      · rw [if_neg hbe] at h2
        rcases List.mem_cons.mp h2 with h3 | h3
        · rw [h3]
          exact ⟨by decide, by decide⟩
        · exact hsep build hbuildV c h3

theorem entry_tokens (e : ReleaseEntry) (hg : goodEntry e) :
    splitWhitespace e.to_release_entry =
      if e.percentage = 100 then
        [e.sha256_to_string, encodeName e.filename_or_url, vformat e.version,
         natRepr e.length,
         if e.is_delta then ['d', 'e', 'l', 't', 'a'] else ['f', 'u', 'l', 'l']]
      else
        [e.sha256_to_string, encodeName e.filename_or_url, vformat e.version,
         natRepr e.length,
         if e.is_delta then ['d', 'e', 'l', 't', 'a'] else ['f', 'u', 'l', 'l'],
         intRepr e.percentage ++ ['%']] := by
  obtain ⟨h32, hbyte, hgf, hver, hlen, hp0, hp1⟩ := hg
  obtain ⟨hne, hd1, hd2, hpfx, hchars⟩ := hgf
  have hesc : e.escape_filename = encodeName e.filename_or_url := by
    simp [ReleaseEntry.escape_filename, hpfx]
  have hshaW : ∀ c ∈ e.sha256_to_string, rustWs c = false := by
    intro c hc
    unfold ReleaseEntry.sha256_to_string at hc
    exact (hexLower_facts c (hexLowerFlat_chars e.sha256 hbyte c hc)).2
  have hshaN : e.sha256_to_string ≠ [] := by
    unfold ReleaseEntry.sha256_to_string
    exact shaTok_ne_nil e.sha256 (by
      intro hq
      rw [hq] at h32
      simp at h32)
  have hascii : ∀ c ∈ e.filename_or_url, c.toNat < 128 := fun c hc => by
    have := (hchars c hc).2.1
    omega
  have hnameW : ∀ c ∈ encodeName e.filename_or_url, rustWs c = false :=
    fun c hc =>
      (encodeName_good_chars e.filename_or_url ⟨hne, hd1, hd2, hpfx, hchars⟩ c hc).2.2.2.2
  have hnameN : encodeName e.filename_or_url ≠ [] := encodeName_ne_nil _ hne hascii
  have hverW : ∀ c ∈ vformat e.version, rustWs c = false :=
    fun c hc => (vformat_chars e.version hver c hc).1
  have hverN := vformat_ne_nil e.version
  have hlenW : ∀ c ∈ natRepr e.length, rustWs c = false := fun c hc =>
    (digit_facts c ((natRepr_spec e.length).2.1 c hc)).2.2.2.2.2.2.2.2
  have hlenN : natRepr e.length ≠ [] := (natRepr_spec e.length).1
  have hdfW : ∀ c ∈ (if e.is_delta then ['d', 'e', 'l', 't', 'a'] else ['f', 'u', 'l', 'l']),
      rustWs c = false := by
    cases e.is_delta <;> decide
  have hdfN : (if e.is_delta then ['d', 'e', 'l', 't', 'a'] else ['f', 'u', 'l', 'l']) ≠ [] := by
    cases e.is_delta <;> decide
  by_cases hp : e.percentage = 100
  · rw [if_pos hp]
    have hform : e.to_release_entry =
        e.sha256_to_string ++ ' ' :: (encodeName e.filename_or_url ++ ' ' :: (vformat e.version
          ++ ' ' :: (natRepr e.length ++ ' ' ::
            (if e.is_delta then ['d', 'e', 'l', 't', 'a'] else ['f', 'u', 'l', 'l'])))) := by
      simp only [ReleaseEntry.to_release_entry]
      rw [if_pos hp, hesc]
      simp only [List.append_assoc, List.cons_append]
    rw [hform, splitWs_sep _ _ hshaN hshaW, splitWs_sep _ _ hnameN hnameW,
      splitWs_sep _ _ hverN hverW, splitWs_sep _ _ hlenN hlenW,
      splitWs_single _ hdfN hdfW]
  · rw [if_neg hp]
    have hpctW : ∀ c ∈ intRepr e.percentage ++ ['%'], rustWs c = false := by
      intro c hc
      rcases List.mem_append.mp hc with h | h
      · rw [intRepr_nonneg _ hp0] at h
        exact (digit_facts c ((natRepr_spec _).2.1 c h)).2.2.2.2.2.2.2.2
      · simp at h
        rw [h]
        decide
    have hpctN : intRepr e.percentage ++ ['%'] ≠ [] := by simp
    have hform : e.to_release_entry =
        e.sha256_to_string ++ ' ' :: (encodeName e.filename_or_url ++ ' ' :: (vformat e.version
          ++ ' ' :: (natRepr e.length ++ ' ' ::
            ((if e.is_delta then ['d', 'e', 'l', 't', 'a'] else ['f', 'u', 'l', 'l'])
              ++ ' ' :: (intRepr e.percentage ++ ['%']))))) := by
      simp only [ReleaseEntry.to_release_entry]
      rw [if_neg hp, hesc]
      simp only [List.append_assoc, List.cons_append]
    rw [hform, splitWs_sep _ _ hshaN hshaW, splitWs_sep _ _ hnameN hnameW,
      splitWs_sep _ _ hverN hverW, splitWs_sep _ _ hlenN hlenW,
      splitWs_sep _ _ hdfN hdfW, splitWs_single _ hpctN hpctW]

theorem parse_format_ok (e : ReleaseEntry) (hg : goodEntry e) :
    ReleaseEntry.parse e.to_release_entry = .ok e := by
  obtain ⟨h32, hbyte, hgf, hver, hlen, hp0, hp1⟩ := hg
  have htok := entry_tokens e ⟨h32, hbyte, hgf, hver, hlen, hp0, hp1⟩
  have hsha : ReleaseEntry.parse_sha256 e.sha256_to_string = .ok e.sha256 := by
    unfold ReleaseEntry.sha256_to_string
    exact parse_sha256_fmt e.sha256 h32 hbyte
  have hname : ReleaseEntry.parse_name (encodeName e.filename_or_url) = .ok e.filename_or_url :=
    parse_name_encodeName _ hgf
  have hverok : ReleaseEntry.parse_version (vformat e.version) = .ok e.version := by
    unfold ReleaseEntry.parse_version
    rw [vparse_vformat _ hver]
  have hlenok : ReleaseEntry.parse_length (natRepr e.length) = .ok e.length := by
    unfold ReleaseEntry.parse_length
    rw [parse_u64_natRepr _ hlen]
  have hdf := parse_delta_full_fmt e.is_delta
  by_cases hp : e.percentage = 100
  · rw [if_pos hp] at htok
    simp only [ReleaseEntry.parse, htok, hdf, hname, hverok, hlenok, hsha]
    rw [← hp]
  · rw [if_neg hp] at htok
    have hpct := parse_percentage_fmt e.percentage hp0 hp1
    simp only [ReleaseEntry.parse, htok, hdf, hname, hverok, hlenok, hpct, hsha]

theorem ne_nl_of_ws (c : Char) (h : rustWs c = false) : c ≠ '\n' := by
  intro hc
  rw [hc] at h
  exact absurd h (by decide)

theorem entry_line_chars (e : ReleaseEntry) (hg : goodEntry e) :
    ∀ c ∈ e.to_release_entry, c ≠ '\n' ∧ c ≠ '#' := by
  obtain ⟨h32, hbyte, hgf, hver, hlen, hp0, hp1⟩ := hg
  obtain ⟨hne, hd1, hd2, hpfx, hchars⟩ := hgf
  have hesc : e.escape_filename = encodeName e.filename_or_url := by
    simp [ReleaseEntry.escape_filename, hpfx]
  have hsha : ∀ c ∈ e.sha256_to_string, c ≠ '\n' ∧ c ≠ '#' := by
    intro c hc
    unfold ReleaseEntry.sha256_to_string at hc
    have h := hexLower_facts c (hexLowerFlat_chars e.sha256 hbyte c hc)
    exact ⟨ne_nl_of_ws c h.2, h.1⟩
  have hname : ∀ c ∈ encodeName e.filename_or_url, c ≠ '\n' ∧ c ≠ '#' := by
    intro c hc
    have h := encodeName_good_chars e.filename_or_url ⟨hne, hd1, hd2, hpfx, hchars⟩ c hc
    exact ⟨ne_nl_of_ws c h.2.2.2.2, h.1⟩
  have hverc : ∀ c ∈ vformat e.version, c ≠ '\n' ∧ c ≠ '#' := by
    intro c hc
    have h := vformat_chars e.version hver c hc
    exact ⟨ne_nl_of_ws c h.1, h.2⟩
  have hlenc : ∀ c ∈ natRepr e.length, c ≠ '\n' ∧ c ≠ '#' := by
    intro c hc
    have h := digit_facts c ((natRepr_spec e.length).2.1 c hc)
    exact ⟨ne_nl_of_ws c h.2.2.2.2.2.2.2.2, h.2.2.2.2.1⟩
  have hdfc : ∀ c ∈ (if e.is_delta then ['d', 'e', 'l', 't', 'a'] else ['f', 'u', 'l', 'l']),
      c ≠ '\n' ∧ c ≠ '#' := by
    cases e.is_delta <;> decide
  have hpctc : ∀ c ∈ intRepr e.percentage, c ≠ '\n' ∧ c ≠ '#' := by
    intro c hc
    rw [intRepr_nonneg _ hp0] at hc
    have h := digit_facts c ((natRepr_spec _).2.1 c hc)
    exact ⟨ne_nl_of_ws c h.2.2.2.2.2.2.2.2, h.2.2.2.2.1⟩
  have hsp : (' ' : Char) ≠ '\n' ∧ (' ' : Char) ≠ '#' := ⟨by decide, by decide⟩
  intro c hc
  simp only [ReleaseEntry.to_release_entry] at hc
  by_cases hp : e.percentage = 100
  · rw [if_pos hp, hesc] at hc
    simp only [List.append_assoc, List.cons_append, List.mem_append, List.mem_cons] at hc
    rcases hc with h | h | h | h | h | h | h | h | h
    · exact hsha c h
    · rw [h]; exact hsp
    · exact hname c h
    · rw [h]; exact hsp
    · exact hverc c h
    · rw [h]; exact hsp
    · exact hlenc c h
    · rw [h]; exact hsp
    · exact hdfc c h
  · rw [if_neg hp, hesc] at hc
    simp only [List.append_assoc, List.cons_append, List.mem_append, List.mem_cons] at hc
    rcases hc with h | h | h | h | h | h | h | h | h | h | h | h
    · exact hsha c h
    · rw [h]; exact hsp
    · exact hname c h
    · rw [h]; exact hsp
    · exact hverc c h
    · rw [h]; exact hsp
    · exact hlenc c h
    · rw [h]; exact hsp
    · exact hdfc c h
    · rw [h]; exact hsp
    · exact hpctc c h
    · rcases h with h | h
      · rw [h]; exact ⟨by decide, by decide⟩
      · exact absurd h (by simp)

theorem entry_line_ne_nil (e : ReleaseEntry) (hg : goodEntry e) :
    e.to_release_entry ≠ [] := by
  have htok := entry_tokens e hg
  intro h
  rw [h] at htok
  have hemp : splitWhitespace ([] : List Char) = [] := rfl
  rw [hemp] at htok
  by_cases hp : e.percentage = 100
  · rw [if_pos hp] at htok
    exact absurd htok (by simp)
  · rw [if_neg hp] at htok
    exact absurd htok (by simp)

theorem trimNl_no_nl (x : List Char) (h : ∀ c ∈ x, c ≠ '\n') :
    ReleaseEntry.trimNl x = x := by
  unfold ReleaseEntry.trimNl
  rw [dropWhile_of_all _ _ (fun c hc => by simp [h c (List.mem_reverse.mp hc)])]
  exact List.reverse_reverse x

theorem trimNl_append_nl (y : List Char) :
    ReleaseEntry.trimNl (y ++ ['\n']) = ReleaseEntry.trimNl y := by
  unfold ReleaseEntry.trimNl
  rw [List.reverse_append]
  simp [List.dropWhile_cons]

theorem trimNl_append (a z : List Char) (h : ReleaseEntry.trimNl z ≠ []) :
    ReleaseEntry.trimNl (a ++ z) = a ++ ReleaseEntry.trimNl z := by
  unfold ReleaseEntry.trimNl at h ⊢
  rw [List.reverse_append, List.dropWhile_append]
  have hne : (z.reverse.dropWhile (fun c => c = '\n')).isEmpty = false := by
    cases hq : z.reverse.dropWhile (fun c => c = '\n') with
    | nil =>
      rw [hq] at h
      exact absurd rfl h
    | cons u t => simp
  rw [hne]
  simp only [Bool.false_eq_true, if_false]
  rw [List.reverse_append, List.reverse_reverse]

theorem trimNl_body (lines : List (List Char))
    (hnn : ∀ l ∈ lines, l ≠ [] ∧ ∀ c ∈ l, c ≠ '\n') :
    ReleaseEntry.trimNl ((lines.map (fun l => l ++ ['\n'])).flatten) =
      sepJoin '\n' lines := by
  induction lines with
  | nil =>
    simp only [List.map_nil, List.flatten_nil]
    rfl
  | cons x ys ih =>
    cases ys with
    | nil =>
      simp only [List.map_cons, List.map_nil, List.flatten_cons, List.flatten_nil,
        List.append_nil]
      rw [trimNl_append_nl, trimNl_no_nl x (hnn x (by simp)).2]
      rfl
    | cons y zs =>
      have ihz := ih (fun l hl => hnn l (by simp [List.mem_cons] at hl ⊢; tauto))
      have hzne : sepJoin '\n' (y :: zs) ≠ [] := by
        cases zs with
        | nil =>
          show y ≠ []
          exact (hnn y (by simp)).1
        | cons z zs2 =>
          show y ++ '\n' :: sepJoin '\n' (z :: zs2) ≠ []
          simp
      have hflat : ((x :: y :: zs).map (fun l => l ++ ['\n'])).flatten =
          (x ++ ['\n']) ++ ((y :: zs).map (fun l => l ++ ['\n'])).flatten := by
        simp
      rw [hflat, trimNl_append _ _ (by rw [ihz]; exact hzne), ihz]
      show x ++ ['\n'] ++ sepJoin '\n' (y :: zs) = x ++ '\n' :: sepJoin '\n' (y :: zs)
      simp

theorem body_foldl (es : List ReleaseEntry) : ∀ acc : List Char,
    es.foldl (fun acc e => acc ++ e.to_release_entry ++ ['\n']) acc =
      acc ++ ((es.map ReleaseEntry.to_release_entry).map (fun l => l ++ ['\n'])).flatten := by
  induction es with
  | nil => intro acc; simp
  | cons e t ih =>
    intro acc
    simp only [List.foldl_cons, List.map_cons, List.flatten_cons]
    rw [ih]
    simp [List.append_assoc]

theorem to_releases_file_eq (es : List ReleaseEntry) (hg : ∀ e ∈ es, goodEntry e) :
    ReleaseEntry.to_releases_file es =
      HEADER ++ '\n' :: sepJoin '\n' (es.map ReleaseEntry.to_release_entry) := by
  have hnn : ∀ l ∈ es.map ReleaseEntry.to_release_entry, l ≠ [] ∧ ∀ c ∈ l, c ≠ '\n' := by
    intro l hl
    rcases List.mem_map.mp hl with ⟨e, he, hle⟩
    rw [← hle]
    exact ⟨entry_line_ne_nil e (hg e he),
      fun c hc => (entry_line_chars e (hg e he) c hc).1⟩
  simp only [ReleaseEntry.to_releases_file]
  rw [body_foldl es [], List.nil_append, trimNl_body _ hnn]

theorem splitOnChar_sepJoin (sep : Char) : ∀ lines : List (List Char), lines ≠ [] →
    (∀ l ∈ lines, ∀ c ∈ l, c ≠ sep) →
    splitOnChar sep (sepJoin sep lines) = lines := by
  intro lines
  induction lines with
  | nil => intro h _; exact absurd rfl h
  | cons x ys ih =>
    intro _ hc
    cases ys with
    | nil =>
      show splitOnChar sep x = [x]
      exact splitOnChar_no_sep sep x (hc x (by simp))
    | cons y zs =>
      show splitOnChar sep (x ++ sep :: sepJoin sep (y :: zs)) = x :: y :: zs
      rw [splitOnChar_append_sep sep _ _ (hc x (by simp))]
      rw [ih (by simp) (fun l hl c hcl => hc l (by simp [List.mem_cons] at hl ⊢; tauto) c hcl)]

theorem filterMap_all_none {α β : Type} (f : α → Option β) (l : List α)
    (h : ∀ a ∈ l, f a = none) : l.filterMap f = [] := by
  induction l with
  | nil => rfl
  | cons a t ih =>
    rw [List.filterMap_cons, h a (by simp)]
    exact ih (fun x hx => h x (by simp [hx]))

theorem filterMap_all_id {α : Type} (f : α → Option α) (l : List α)
    (h : ∀ a ∈ l, f a = some a) : l.filterMap f = l := by
  induction l with
  | nil => rfl
  | cons a t ih =>
    rw [List.filterMap_cons, h a (by simp)]
    rw [ih (fun x hx => h x (by simp [hx]))]

theorem lineOutcome_entry (e : ReleaseEntry) (hg : goodEntry e) :
    lineOutcome e.to_release_entry = some (.ok e) := by
  have hstrip : stripComment e.to_release_entry = e.to_release_entry :=
    takeWhile_of_all _ _ (fun c hc => by simp [(entry_line_chars e hg c hc).2])
  simp only [lineOutcome, hstrip]
  rw [if_neg (entry_line_ne_nil e hg), parse_format_ok e hg]

theorem parse_entries_format (es : List ReleaseEntry) (hg : ∀ e ∈ es, goodEntry e) :
    ReleaseEntry.parse_entries (ReleaseEntry.to_releases_file es) = .ok es := by
  rw [to_releases_file_eq es hg]
  cases es with
  | nil =>
    show ReleaseEntry.parse_entries (HEADER ++ '\n' :: sepJoin '\n' []) = .ok []
    rfl
  | cons e0 rest =>
    have hg2 : ∀ e ∈ e0 :: rest, goodEntry e := hg
    have hheadnl : ∀ c ∈ HEADER, c ≠ '\n' := by decide
    have hmapne : (e0 :: rest).map ReleaseEntry.to_release_entry ≠ [] := by simp
    have hlnl : ∀ l ∈ (e0 :: rest).map ReleaseEntry.to_release_entry, ∀ c ∈ l, c ≠ '\n' := by
      intro l hl c hc
      rcases List.mem_map.mp hl with ⟨e, he, hle⟩
      rw [← hle] at hc
      exact (entry_line_chars e (hg2 e he) c hc).1
    have hsplit : splitOnChar '\n'
        (HEADER ++ '\n' :: sepJoin '\n' ((e0 :: rest).map ReleaseEntry.to_release_entry)) =
        HEADER :: (e0 :: rest).map ReleaseEntry.to_release_entry := by
      rw [splitOnChar_append_sep '\n' _ _ hheadnl,
        splitOnChar_sepJoin '\n' _ hmapne hlnl]
    have hH : lineOutcome HEADER = none := rfl
    have hErr : docErrs
        (HEADER ++ '\n' :: sepJoin '\n' ((e0 :: rest).map ReleaseEntry.to_release_entry)) = [] := by
      unfold docErrs
      rw [hsplit]
      apply filterMap_all_none
      intro l hl
      rcases List.mem_cons.mp hl with h | h
      · rw [h]
        simp [lineErr, hH]
      · rcases List.mem_map.mp h with ⟨e, he, hle⟩
        rw [← hle]
        simp [lineErr, lineOutcome_entry e (hg2 e he)]
    have hOk : docOks
        (HEADER ++ '\n' :: sepJoin '\n' ((e0 :: rest).map ReleaseEntry.to_release_entry)) =
        e0 :: rest := by
      unfold docOks
      rw [hsplit, List.filterMap_cons]
      have hHok : lineOk HEADER = none := by simp [lineOk, hH]
      rw [hHok]
      have : ∀ e ∈ e0 :: rest, (fun e : ReleaseEntry => lineOk e.to_release_entry) e = some e := by
        intro e he
        simp [lineOk, lineOutcome_entry e (hg2 e he)]
      rw [List.filterMap_map]
      exact filterMap_all_id _ _ this
    rw [parse_entries_eq, hErr, hOk]
    rfl

/-- C6 (corrected): the format-parse-format round trip fails for some
ASCII control-free filenames, such as names containing a percent escape
(see the counterexample); it holds on the round-trip-exact entries: a
32-byte digest of bytes, a printable ASCII filename free of percent
signs, separators and dot segments without the https marker, a
grammatical version, a 64-bit length and a percentage in range. On such
entries parse inverts to_release_entry exactly, so re-formatting the
parsed entry reproduces the formatted line. -/
theorem c6_roundtrip_good (e : ReleaseEntry) (hg : goodEntry e) :
    ReleaseEntry.parse e.to_release_entry = .ok e ∧
    (ReleaseEntry.parse e.to_release_entry).map ReleaseEntry.to_release_entry =
      .ok e.to_release_entry := by
  have h := parse_format_ok e hg
  exact ⟨h, by rw [h]; rfl⟩

theorem c6_roundtrip_good_witness :
    goodEntry ⟨List.replicate 32 7, "my-app.7z".data, ⟨1, 2, 3, [], []⟩, 12345, true, 55⟩ ∧
    (ReleaseEntry.parse (ReleaseEntry.to_release_entry
        ⟨List.replicate 32 7, "my-app.7z".data, ⟨1, 2, 3, [], []⟩, 12345, true, 55⟩)).map
      ReleaseEntry.to_release_entry =
      .ok (ReleaseEntry.to_release_entry
        ⟨List.replicate 32 7, "my-app.7z".data, ⟨1, 2, 3, [], []⟩, 12345, true, 55⟩) :=
  ⟨by decide, (c6_roundtrip_good
    ⟨List.replicate 32 7, "my-app.7z".data, ⟨1, 2, 3, [], []⟩, 12345, true, 55⟩ (by decide)).2⟩

/-- C5 (corrected): re-formatting what parse_entries reads back from a
formatted document fails for some formatter outputs (see the
counterexample); it holds whenever every entry of the sequence is
round-trip exact: then parse_entries inverts to_releases_file, so
re-formatting the parsed entries reproduces the document byte for
byte. -/
theorem c5_roundtrip_good (es : List ReleaseEntry) (hg : ∀ e ∈ es, goodEntry e) :
    (ReleaseEntry.parse_entries (ReleaseEntry.to_releases_file es)).map
      ReleaseEntry.to_releases_file = .ok (ReleaseEntry.to_releases_file es) := by
  rw [parse_entries_format es hg]
  rfl

theorem c5_roundtrip_good_witness :
    (∀ e ∈ [(⟨List.replicate 32 0, "alpha.7z".data, ⟨1, 0, 0, [], []⟩, 10, false, 100⟩ : ReleaseEntry),
            ⟨List.replicate 32 255, "beta.7z".data, ⟨2, 1, 0, [], []⟩, 20, true, 30⟩],
      goodEntry e) ∧
    (ReleaseEntry.parse_entries (ReleaseEntry.to_releases_file
        [⟨List.replicate 32 0, "alpha.7z".data, ⟨1, 0, 0, [], []⟩, 10, false, 100⟩,
         ⟨List.replicate 32 255, "beta.7z".data, ⟨2, 1, 0, [], []⟩, 20, true, 30⟩])).map
      ReleaseEntry.to_releases_file =
      .ok (ReleaseEntry.to_releases_file
        [⟨List.replicate 32 0, "alpha.7z".data, ⟨1, 0, 0, [], []⟩, 10, false, 100⟩,
         ⟨List.replicate 32 255, "beta.7z".data, ⟨2, 1, 0, [], []⟩, 20, true, 30⟩]) :=
  ⟨by decide, c5_roundtrip_good
    [⟨List.replicate 32 0, "alpha.7z".data, ⟨1, 0, 0, [], []⟩, 10, false, 100⟩,
     ⟨List.replicate 32 255, "beta.7z".data, ⟨2, 1, 0, [], []⟩, 20, true, 30⟩] (by decide)⟩

theorem chunksAux_flatten {α : Type} (m : Nat) : ∀ (fuel : Nat) (l : List α),
    l.length ≤ fuel → (chunksAux m fuel l).flatten = l := by
  intro fuel
  induction fuel with
  | zero =>
    intro l hl
    have hnl : l = [] := List.eq_nil_of_length_eq_zero (Nat.le_zero.mp hl)
    rw [hnl]
    rfl
  | succ f ih =>
    intro l hl
    cases l with
    | nil => rfl
    | cons c rest =>
      simp only [chunksAux, List.flatten_cons]
      rw [ih (rest.drop m) (by simp at hl ⊢; omega)]
      rw [List.cons_append, List.take_append_drop]

theorem foldl_shaInput (ls : List (List Nat)) : ∀ ctx : Sha256Ctx,
    (ls.foldl shaInput ctx).fed = ctx.fed ++ ls.flatten := by
  induction ls with
  | nil => intro ctx; simp
  | cons x t ih =>
    intro ctx
    simp only [List.foldl_cons, List.flatten_cons]
    rw [ih]
    simp [shaInput, List.append_assoc]

/-- C8 (confirmed): on a path with a usable final segment, from_file
returns an entry whose digest is the SHA-256 hash of the whole content
fed through the chunked hasher, whose length is the exact byte count,
whose name is the final path segment taken verbatim, and whose remaining
fields are the defaults: version 0.0.0, a full package, and a percentage
of one hundred. -/
theorem c8_from_file (path : List Char) (content : List Nat) (nm : List Char)
    (h : fileNameOf path = some nm) :
    ReleaseEntry.from_file path content =
      some ⟨sha256Hash content, nm, ⟨0, 0, 0, [], []⟩, content.length, false, 100⟩ := by
  simp only [ReleaseEntry.from_file]
  rw [h]
  have hctx : ((chunksOf1 65535 content).foldl shaInput ⟨[]⟩).fed = content := by
    rw [foldl_shaInput]
    simp only [List.nil_append]
    unfold chunksOf1
    exact chunksAux_flatten 65535 content.length content (Nat.le_refl _)
  have hres : shaResult ((chunksOf1 65535 content).foldl shaInput ⟨[]⟩) =
      sha256Hash content := by
    unfold shaResult
    rw [hctx]
  rw [hres]

theorem c8_from_file_witness :
    fileNameOf ("docs/LICENSE".data) = some ("LICENSE".data) ∧
    ReleaseEntry.from_file ("docs/LICENSE".data) [97, 98, 99] =
      some ⟨sha256Hash [97, 98, 99], "LICENSE".data, ⟨0, 0, 0, [], []⟩, 3, false, 100⟩ ∧
    sha256Hash [97, 98, 99] =
      [0xba, 0x78, 0x16, 0xbf, 0x8f, 0x01, 0xcf, 0xea, 0x41, 0x41, 0x40, 0xde, 0x5d, 0xae,
       0x22, 0x23, 0xb0, 0x03, 0x61, 0xa3, 0x96, 0x17, 0x7a, 0x9c, 0xb4, 0x10, 0xff, 0x61,
       0xf2, 0x00, 0x15, 0xad] :=
  ⟨rfl, c8_from_file ("docs/LICENSE".data) [97, 98, 99] ("LICENSE".data) rfl, by decide⟩
